import Mathlib

/-!
The GF(2) decoder of `decode_ezhik.go`.

A shallow embedding of the bit set (`bitSet`) and of the incremental solver
(`LinearSystem`) of `decode_ezhik.go`, followed by the properties proved about them.

Conventions of the embedding.

* Go `int` is `Int`. Every `int` of the program is a length, a position or an index
  into a slice, so the only place where wrap-around can be reached is `n+63` in
  `NewBitSet`; it is handled there.
* Go `uint64` is `Nat`; `bitSet.Inv` records that every stored word is below `2^64`.
* A method that writes to its receiver returns an `Outcome`: the value it returns, or
  the panic that stopped it, together with the receiver as it is at that moment.
  A method that only reads returns `Except Panic`.
* `i >> 6` is `i / 64` and `i & 0x3F` is `i % 64` (floor division and non-negative
  remainder of `Int`, which is what the two's complement operations compute).
* A `BitSet` held by a `LinearSystem` is a pointer in Go. The rows are kept here by
  value: every `Add` is taken to receive bit sets that are not shared with another row
  or with the caller. The one place where the source can hand the same object to
  `XorWith` twice (`Eliminate(i, i)`) is modelled through `XorWithFrom`.
-/

namespace Ezhik

/-- Ways in which a call can stop abnormally. The last one is not a Go panic: it marks
the bound of a modelled loop being hit, and is shown not to happen. -/
inductive Panic where
  | indexOutOfRange
  | makeSliceLen
  | xorWithDifferentLengths
  | backtrackTooEarly
  | solveNotReady
  | fuelExhausted
deriving DecidableEq

deriving instance DecidableEq for Except

/-- Result of a call on a receiver of type `σ`. -/
inductive Outcome (σ : Type) (α : Type) where
  | returns (val : α) (st : σ)
  | panics (why : Panic) (st : σ)
deriving DecidableEq

/-- The receiver as a call leaves it, whether it returned or panicked. -/
def Outcome.state {σ α : Type} : Outcome σ α → σ
  | .returns _ st => st
  | .panics _ st => st

/-- Go's `s[i]` read with its bounds check. -/
def getAt {α : Type} (s : List α) (i : Int) : Option α :=
  if i < 0 then none else s[i.toNat]?

/-- Largest value of a 64-bit `int`. -/
def maxInt : Int := 2 ^ 63 - 1

/-- All ones in a `uint64`. -/
def allOnes : Nat := 2 ^ 64 - 1

/-- `type bitSet struct { a []uint64; n int }`. -/
structure bitSet where
  a : List Nat
  n : Int
deriving DecidableEq

namespace bitSet

/-- `NewBitSet(n)`: `(n+63)/64` zero words (Go division truncates toward zero; `make`
panics on a negative length, which is also what a wrapped `n+63` gives). -/
def NewBitSet (n : Int) : Except Panic bitSet :=
  if maxInt < n + 63 then .error .makeSliceLen
  else if (n + 63).tdiv 64 < 0 then .error .makeSliceLen
  else .ok { a := List.replicate ((n + 63).tdiv 64).toNat 0, n := n }

/-- `Len`. -/
def Len (bs : bitSet) : Int := bs.n

/-- `Has(i)`: `(bs.a[i>>6] >> uint(i&0x3F)) != 0`. -/
def Has (bs : bitSet) (i : Int) : Except Panic Bool :=
  match getAt bs.a (i / 64) with
  | none => .error .indexOutOfRange
  | some w => .ok (w >>> (i % 64).toNat != 0)

/-- `Set(i, val)`: or the bit in, or mask it out. A bad index panics before the store. -/
def Set (bs : bitSet) (i : Int) (val : Bool) : Outcome bitSet Unit :=
  match getAt bs.a (i / 64) with
  | none => .panics .indexOutOfRange bs
  | some w =>
    let w1 := if val then w ||| (1 <<< (i % 64).toNat)
              else w &&& (allOnes ^^^ (1 <<< (i % 64).toNat))
    .returns () { bs with a := List.set bs.a (i / 64).toNat w1 }

/-- The loop of `XorWith`, `k` iterations from index `i`. `arg` gives the argument as it
is seen while the receiver holds a given content: a constant when the argument is
another object, the identity when it is the receiver itself. -/
def XorWithLoop (arg : bitSet → bitSet) : Nat → Int → bitSet → Outcome bitSet Unit
  | 0, _, bs => .returns () bs
  | k + 1, i, bs =>
    match bs.Has i with
    | .error e => .panics e bs
    | .ok p =>
      match (arg bs).Has i with
      | .error e => .panics e bs
      | .ok q =>
        match bs.Set i (p != q) with
        | .panics e bs1 => .panics e bs1
        | .returns _ bs1 => XorWithLoop arg k (i + 1) bs1

/-- `XorWith` with the argument given through `arg` (see `XorWithLoop`). -/
def XorWithFrom (arg : bitSet → bitSet) (bs : bitSet) : Outcome bitSet Unit :=
  if bs.Len ≠ (arg bs).Len then .panics .xorWithDifferentLengths bs
  else XorWithLoop arg bs.n.toNat 0 bs

/-- `bs.XorWith(set)` for `set` an object other than `bs`. -/
def XorWith (bs set : bitSet) : Outcome bitSet Unit :=
  XorWithFrom (fun _ => set) bs

/-- `v.XorWith(v)`: receiver and argument are one object. -/
def XorWithSelf (v : bitSet) : Outcome bitSet Unit :=
  XorWithFrom id v

/-- What every bit set made by `NewBitSet` keeps, whatever is `Set` in it afterwards: a
length that `NewBitSet` accepts, the number of words, and words that fit in 64 bits. -/
def Inv (bs : bitSet) : Prop :=
  bs.n + 63 ≤ maxInt ∧ (bs.a.length : Int) = (bs.n + 63).tdiv 64 ∧ ∀ w ∈ bs.a, w < 2 ^ 64

instance (bs : bitSet) : Decidable bs.Inv := by
  unfold Inv; infer_instance

/-- Bit `i` as stored: bit `i mod 64` of word `i div 64` (false outside the words). -/
def bit (bs : bitSet) (i : Nat) : Bool :=
  (bs.a.getD (i / 64) 0).testBit (i % 64)

/-- Bit sets obtained from `NewBitSet(n)` by `Set` calls at indices below `n`. -/
inductive Built (n : Int) : bitSet → Prop where
  | new (v : bitSet) (h : NewBitSet n = .ok v) : Built n v
  | set (v w : bitSet) (i : Int) (val : Bool) (hv : Built n v) (h0 : 0 ≤ i) (hi : i < n)
      (h : v.Set i val = .returns () w) : Built n w

/-- A bit set of `Len n`. -/
def Fits (n : Int) (v : bitSet) : Prop :=
  v.Inv ∧ v.Len = n

instance (n : Int) (v : bitSet) : Decidable (Fits n v) := by
  unfold Fits; infer_instance

/-- The bitwise exclusive or of the words of two bit sets: what `XorWith` is specified
to leave in its receiver. -/
def xorWords (a b : bitSet) : bitSet :=
  { a := List.zipWith (fun x y => x ^^^ y) a.a b.a, n := a.n }

/-- What `Has(j)` returns on the words of `v` (false outside the words): whether the word
of index `j`, shifted right by `j mod 64`, is not zero. -/
def hasAt (v : bitSet) (j : Nat) : Bool :=
  (v.a.getD (j / 64) 0) >>> (j % 64) != 0

/-- The number of significant bits of a word `w` below `2^fuel`, so that `w >> s != 0`
exactly when `s` is below it. -/
def bitLen : Nat → Nat → Nat
  | 0, _ => 0
  | f + 1, w => if w = 0 then 0 else bitLen f (w / 2) + 1

/-- One word of the receiver after `XorWith`, in closed form. `m` is the number of bits of
the word that lie below `Len`; `wa` is the word of the receiver and `wb` that of the
argument. Below `m`, bit `s` is set exactly when one of `wa >> s`, `wb >> s` is zero
and the other is not; from `m` on the word keeps the bits of `wa`. -/
def xorWord (m wa wb : Nat) : Nat :=
  (wa &&& (allOnes ^^^ (2 ^ m - 1))) |||
    (((2 ^ bitLen 64 wa - 1) ^^^ (2 ^ bitLen 64 wb - 1)) &&& (2 ^ m - 1))

/-- The words of the receiver after `XorWith`, from word `q` on, for a length `n`. -/
def xorWordsFrom (n : Nat) : Nat → List Nat → List Nat → List Nat
  | _, [], _ => []
  | _, wa :: as, [] => wa :: as
  | q, wa :: as, wb :: bs =>
    xorWord (min 64 (n - 64 * q)) wa wb :: xorWordsFrom n (q + 1) as bs

/-- The receiver after `a.XorWith(b)`, in closed form (see `XorWith_eq_xorClosed`). -/
def xorClosed (a b : bitSet) : bitSet :=
  { a := xorWordsFrom a.n.toNat 0 a.a b.a, n := a.n }

/-- No bit is stored in `r` at a column below `m`. -/
def ZeroBelow (r : bitSet) (m : Nat) : Prop :=
  ∀ j, j < m → r.bit j = false

/-- The all-zero bit set of `Len n`, as `NewBitSet(n)` makes it. -/
def zeros (n : Int) : bitSet :=
  { a := List.replicate ((n + 63).tdiv 64).toNat 0, n := n }

/-- The bitwise exclusive or of a list of bit sets of `Len n`; the zero vector for the
empty list. -/
def xorAll (n : Int) (vs : List bitSet) : bitSet :=
  vs.foldl xorWords (zeros n)

/-- Linear independence over GF(2) of bit sets of `Len n`: no non-empty selection of
them xors to the zero vector. -/
def Independent (n : Int) (vs : List bitSet) : Prop :=
  ∀ s ∈ vs.sublists, s ≠ [] → xorAll n s ≠ zeros n

instance (n : Int) (vs : List bitSet) : Decidable (Independent n vs) := by
  unfold Independent; infer_instance

/-- The value that goes with a coefficient vector for the ground truth `x`: the bitwise
exclusive or of `x[j]` over the `j` at which the coefficient vector stores a 1. -/
def codedBlock (blockLen : Int) (coeff : bitSet) (x : List bitSet) : bitSet :=
  xorAll blockLen ((List.range x.length).filterMap fun j =>
    if coeff.bit j then x[j]? else none)

/-- The part of `math/rand` that `GetMask` uses, taken as a parameter: the states of a
generator, the generator `rand.New(rand.NewSource(seed))` makes from a seed, and
`r.Intn(k)`, which gives a draw and leaves the generator in its next state. -/
structure Rand where
  State : Type
  newSource : Int → State
  intn : State → Int → Int × State

/-- The generator after `k` calls of `Intn(2)`. -/
def Rand.after (R : Rand) : Nat → R.State → R.State
  | 0, r => r
  | k + 1, r => Rand.after R k (R.intn r 2).2

/-- The stream of draws of a seed: draw number `k` is what the call number `k` of
`Intn(2)` returns on the generator made from the seed. -/
def Rand.draw (R : Rand) (seed : Int) (k : Nat) : Int :=
  (R.intn (Rand.after R k (R.newSource seed)) 2).1

/-- The loop of `GetMask`: `k` iterations from index `i`, with the generator in state `r`. -/
def GetMaskLoop (R : Rand) : Nat → Int → R.State → bitSet → Outcome bitSet Unit
  | 0, _, _, res => .returns () res
  | k + 1, i, r, res =>
    match res.Set i ((R.intn r 2).1 == 0) with
    | .panics e res1 => .panics e res1
    | .returns _ res1 => GetMaskLoop R k (i + 1) (R.intn r 2).2 res1

/-- `GetMask(n, seed)`. -/
def GetMask (R : Rand) (n : Int) (seed : Int) : Except Panic bitSet :=
  match NewBitSet n with
  | .error e => .error e
  | .ok res =>
    match GetMaskLoop R n.toNat 0 (R.newSource seed) res with
    | .panics e _ => .error e
    | .returns _ res1 => .ok res1

/-- A small generator to run `GetMask` on: the state is a counter started at the seed,
and `Intn(k)` returns the counter modulo `k`. -/
def counterRand : Rand :=
  { State := Int, newSource := fun seed => seed, intn := fun r k => (r % k, r + 1) }

end bitSet

/-- `type LinearSystem struct { n int; lines []BitSet; y []BitSet; pos int; ready bool }`. -/
structure LinearSystem where
  n : Int
  lines : List bitSet
  y : List bitSet
  pos : Int
  ready : Bool
deriving DecidableEq

namespace LinearSystem

/-- The system before any equation: `LinearSystem{n: n}`, every other field zero. -/
def empty (n : Int) : LinearSystem :=
  { n := n, lines := [], y := [], pos := 0, ready := false }

/-- `Eliminate(dst, src)`: when row `dst` `Has(src)`, row `src` is xored into the
coefficients of row `dst`. The values `y` are not touched. -/
def Eliminate (ls : LinearSystem) (dst src : Int) : Outcome LinearSystem Unit :=
  match getAt ls.lines dst with
  | none => .panics .indexOutOfRange ls
  | some d =>
    match d.Has src with
    | .error e => .panics e ls
    | .ok false => .returns () ls
    | .ok true =>
      match getAt ls.lines src with
      | none => .panics .indexOutOfRange ls
      | some s =>
        match (if dst = src then d.XorWithSelf else d.XorWith s) with
        | .panics e d1 => .panics e { ls with lines := List.set ls.lines dst.toNat d1 }
        | .returns _ d1 => .returns () { ls with lines := List.set ls.lines dst.toNat d1 }

/-- The loop of `EliminateSrcRange`: `k` iterations from `i`. -/
def EliminateSrcRangeLoop (dst src : Int) : Nat → Int → LinearSystem → Outcome LinearSystem Unit
  | 0, _, ls => .returns () ls
  | k + 1, i, ls =>
    match ls.Eliminate dst (src + i) with
    | .panics e ls1 => .panics e ls1
    | .returns _ ls1 => EliminateSrcRangeLoop dst src k (i + 1) ls1

/-- `EliminateSrcRange(dst, src, count)`. -/
def EliminateSrcRange (ls : LinearSystem) (dst src count : Int) : Outcome LinearSystem Unit :=
  EliminateSrcRangeLoop dst src count.toNat 0 ls

/-- The loop of `EliminateDstRange`: `k` iterations from `i`. -/
def EliminateDstRangeLoop (dst src : Int) : Nat → Int → LinearSystem → Outcome LinearSystem Unit
  | 0, _, ls => .returns () ls
  | k + 1, i, ls =>
    match ls.Eliminate (dst + i) src with
    | .panics e ls1 => .panics e ls1
    | .returns _ ls1 => EliminateDstRangeLoop dst src k (i + 1) ls1

/-- `EliminateDstRange(dst, count, src)`. -/
def EliminateDstRange (ls : LinearSystem) (dst count src : Int) : Outcome LinearSystem Unit :=
  EliminateDstRangeLoop dst src count.toNat 0 ls

/-- The loop of `FindOne`: `k` iterations from `i`. -/
def FindOneLoop (ls : LinearSystem) (base index : Int) : Nat → Int → Except Panic Int
  | 0, _ => .ok (-1)
  | k + 1, i =>
    match getAt ls.lines (base + i) with
    | none => .error .indexOutOfRange
    | some r =>
      match r.Has index with
      | .error e => .error e
      | .ok true => .ok (base + i)
      | .ok false => FindOneLoop ls base index k (i + 1)

/-- `FindOne(base, count, index)`: the first row from `base` that `Has(index)`, or `-1`. -/
def FindOne (ls : LinearSystem) (base count index : Int) : Except Panic Int :=
  FindOneLoop ls base index count.toNat 0

/-- `Promote(index)`: swap row `index` (and its value) into place `pos`, set its bit
`pos`, advance `pos`, and eliminate column `pos-1` from the rows `pos ..`. -/
def Promote (ls : LinearSystem) (index : Int) : Outcome LinearSystem Unit :=
  match getAt ls.lines index, getAt ls.lines ls.pos with
  | none, _ => .panics .indexOutOfRange ls
  | _, none => .panics .indexOutOfRange ls
  | some li, some lp =>
    let ls1 := { ls with lines := List.set (List.set ls.lines ls.pos.toNat li) index.toNat lp }
    match getAt ls1.y index, getAt ls1.y ls1.pos with
    | none, _ => .panics .indexOutOfRange ls1
    | _, none => .panics .indexOutOfRange ls1
    | some yi, some yp =>
      let ls2 := { ls1 with y := List.set (List.set ls1.y ls1.pos.toNat yi) index.toNat yp }
      match getAt ls2.lines ls2.pos with
      | none => .panics .indexOutOfRange ls2
      | some r =>
        match r.Set ls2.pos true with
        | .panics e r1 => .panics e { ls2 with lines := List.set ls2.lines ls2.pos.toNat r1 }
        | .returns _ r1 =>
          let ls3 := { ls2 with lines := List.set ls2.lines ls2.pos.toNat r1, pos := ls2.pos + 1 }
          ls3.EliminateDstRange ls3.pos ((ls3.lines.length : Int) - ls3.pos) (ls3.pos - 1)

/-- The loop `for ls.pos < ls.n { ... }` of `Add`, bounded by `fuel` iterations. -/
def AddSweep : Nat → LinearSystem → Outcome LinearSystem Unit
  | fuel, ls =>
    if ls.pos < ls.n then
      match fuel with
      | 0 => .panics .fuelExhausted ls
      | f + 1 =>
        match ls.FindOne ls.pos ((ls.lines.length : Int) - ls.pos) ls.pos with
        | .error e => .panics e ls
        | .ok i =>
          if i = -1 then .returns () ls
          else
            match ls.Promote i with
            | .panics e ls1 => .panics e ls1
            | .returns _ ls1 => AddSweep f ls1
    else .returns () ls

/-- `Add(line, y)`. The sweep loop is given `n - pos` iterations, one for every
promotion that is still possible. -/
def Add (ls : LinearSystem) (line y : bitSet) : Outcome LinearSystem Bool :=
  if ls.pos ≥ ls.n then .returns true ls
  else
    let ls1 := { ls with lines := ls.lines ++ [line], y := ls.y ++ [y] }
    let index : Int := (ls1.lines.length : Int) - 1
    match ls1.EliminateSrcRange index 0 ls1.pos with
    | .panics e ls2 => .panics e ls2
    | .returns _ ls2 =>
      match getAt ls2.lines index with
      | none => .panics .indexOutOfRange ls2
      | some r =>
        match r.Has ls2.pos with
        | .error e => .panics e ls2
        | .ok false => .returns false ls2
        | .ok true =>
          match ls2.Promote index with
          | .panics e ls3 => .panics e ls3
          | .returns _ ls3 =>
            match AddSweep (ls3.n - ls3.pos).toNat ls3 with
            | .panics e ls4 => .panics e ls4
            | .returns _ ls4 => .returns (decide (ls4.pos = ls4.n)) ls4

/-- The loop of `Backtrack`: `k` iterations, counting `i` down. -/
def BacktrackLoop : Nat → Int → LinearSystem → Outcome LinearSystem Unit
  | 0, _, ls => .returns () ls
  | k + 1, i, ls =>
    match ls.EliminateDstRange 0 (i - 1) i with
    | .panics e ls1 => .panics e ls1
    | .returns _ ls1 => BacktrackLoop k (i - 1) ls1

/-- `Backtrack()`: `for i := ls.n - 1; i > 0; i--` runs for `i = n-1, ..., 1`. -/
def Backtrack (ls : LinearSystem) : Outcome LinearSystem Unit :=
  if ls.pos < ls.n then .panics .backtrackTooEarly ls
  else
    match BacktrackLoop (ls.n - 1).toNat (ls.n - 1) ls with
    | .panics e ls1 => .panics e ls1
    | .returns _ ls1 => .returns () { ls1 with ready := true }

/-- The inner loop of `Solve` for row `i`: `k` iterations from `j`, accumulating in `x`. -/
def SolveRow (ls : LinearSystem) (i : Int) : Nat → Int → bitSet → Except Panic bitSet
  | 0, _, x => .ok x
  | k + 1, j, x =>
    match getAt ls.lines i with
    | none => .error .indexOutOfRange
    | some r =>
      match r.Has j with
      | .error e => .error e
      | .ok false => SolveRow ls i k (j + 1) x
      | .ok true =>
        match getAt ls.y j with
        | none => .error .indexOutOfRange
        | some v =>
          match x.XorWith v with
          | .panics e _ => .error e
          | .returns _ x1 => SolveRow ls i k (j + 1) x1

/-- The outer loop of `Solve`: `k` iterations from `i`; the result lists `x[i], x[i+1], ...`. -/
def SolveLoop (ls : LinearSystem) (blockLen : Int) : Nat → Int → Except Panic (List bitSet)
  | 0, _ => .ok []
  | k + 1, i =>
    match bitSet.NewBitSet blockLen with
    | .error e => .error e
    | .ok x0 =>
      match SolveRow ls i ls.n.toNat 0 x0 with
      | .error e => .error e
      | .ok xi =>
        match SolveLoop ls blockLen k (i + 1) with
        | .error e => .error e
        | .ok rest => .ok (xi :: rest)

/-- `Solve()`. It writes only to the bit sets it allocates, so the system it returns
with is the one it was called on. -/
def Solve (ls : LinearSystem) : Outcome LinearSystem (List bitSet) :=
  if !ls.ready then .panics .solveNotReady ls
  else
    match getAt ls.y 0 with
    | none => .panics .indexOutOfRange ls
    | some y0 =>
      if ls.n < 0 then .panics .makeSliceLen ls
      else
        match SolveLoop ls y0.Len ls.n.toNat 0 with
        | .error e => .panics e ls
        | .ok x => .returns x ls

/-- The candidate row after `EliminateSrcRange(index, 0, pos)` of `Add`, in closed form:
the pivot rows `rows`, numbered from `i`, are xored in turn into the candidate `c`
whenever it `Has` their number. -/
def reduceClosed : List bitSet → bitSet → Nat → bitSet
  | [], c, _ => c
  | r :: rest, c, i =>
    reduceClosed rest (if c.hasAt i then bitSet.xorClosed c r else c) (i + 1)

/-- `Add` with the reduction of the candidate against the pivot rows taken in closed form;
everything after the reduction is the text of `Add` (see `Add_eq_AddClosed`). -/
def AddClosed (ls : LinearSystem) (line y : bitSet) : Outcome LinearSystem Bool :=
  if ls.pos ≥ ls.n then .returns true ls
  else
    let ls2 : LinearSystem :=
      { ls with lines := ls.lines ++ [reduceClosed (ls.lines.take ls.pos.toNat) line 0],
                y := ls.y ++ [y] }
    let index : Int := (ls.lines.length : Int)
    match getAt ls2.lines index with
    | none => .panics .indexOutOfRange ls2
    | some r =>
      match r.Has ls2.pos with
      | .error e => .panics e ls2
      | .ok false => .returns false ls2
      | .ok true =>
        match ls2.Promote index with
        | .panics e ls3 => .panics e ls3
        | .returns _ ls3 =>
          match AddSweep (ls3.n - ls3.pos).toNat ls3 with
          | .panics e ls4 => .panics e ls4
          | .returns _ ls4 => .returns (decide (ls4.pos = ls4.n)) ls4

/-- The shape that every system built by `Add` keeps. -/
structure Shape (ls : LinearSystem) : Prop where
  rows : ∀ r ∈ ls.lines, bitSet.Fits ls.n r
  lens : ls.y.length = ls.lines.length
  pos_nonneg : 0 ≤ ls.pos
  pos_le_len : ls.pos ≤ (ls.lines.length : Int)
  pos_le_n : ls.pos ≤ ls.n ∨ ls.pos = 0

/-- `ls1` differs from `ls` at most in the contents of its rows. -/
def RowsOnly (ls ls1 : LinearSystem) : Prop :=
  ls1.n = ls.n ∧ ls1.pos = ls.pos ∧ ls1.y = ls.y ∧ ls1.ready = ls.ready ∧
    ls1.lines.length = ls.lines.length

/-- States reached from the empty system with `n` unknowns by `Add` calls whose
coefficient bit sets have `Len n`; the values are arbitrary. -/
inductive Reached (n : Int) : LinearSystem → Prop where
  | start : Reached n (empty n)
  | add (ls ls1 : LinearSystem) (line y : bitSet) (b : Bool) (h : Reached n ls)
      (hl : bitSet.Fits n line) (ha : ls.Add line y = .returns b ls1) : Reached n ls1

/-- States reached from the empty system with `n` unknowns by `Add` calls (coefficients
of `Len n`, values of `Len blockLen`) and by `Backtrack` calls. -/
inductive ReachedBy (n blockLen : Int) : LinearSystem → Prop where
  | start : ReachedBy n blockLen (empty n)
  | add (ls ls1 : LinearSystem) (line y : bitSet) (b : Bool) (h : ReachedBy n blockLen ls)
      (hl : bitSet.Fits n line) (hy : bitSet.Fits blockLen y)
      (ha : ls.Add line y = .returns b ls1) : ReachedBy n blockLen ls1
  | backtrack (ls ls1 : LinearSystem) (h : ReachedBy n blockLen ls)
      (hb : ls.Backtrack = .returns () ls1) : ReachedBy n blockLen ls1

/-- Row echelon form as the rows store it: a pivot row `k < pos` stores a 1 at column `k`
and no bit at a column below `k`; a row not yet promoted stores no bit at a column below
`pos`. -/
def Echelon (ls : LinearSystem) : Prop :=
  ∀ (k : Nat) (r : bitSet), ls.lines[k]? = some r →
    ((k : Int) < ls.pos → r.bit k = true ∧ r.ZeroBelow k) ∧
      (ls.pos ≤ (k : Int) → r.ZeroBelow ls.pos.toNat)

/-- States reached from the empty system with `n` unknowns by `Add` calls, with any bit
sets and whether the call returns or panics, by `Backtrack` calls that return and by
`Solve` calls that return. -/
inductive ReachedAll (n : Int) : LinearSystem → Prop where
  | start : ReachedAll n (empty n)
  | add (ls : LinearSystem) (line y : bitSet) (h : ReachedAll n ls) :
      ReachedAll n (ls.Add line y).state
  | backtrack (ls ls1 : LinearSystem) (h : ReachedAll n ls)
      (hb : ls.Backtrack = .returns () ls1) : ReachedAll n ls1
  | solve (ls ls1 : LinearSystem) (x : List bitSet) (h : ReachedAll n ls)
      (hs : ls.Solve = .returns x ls1) : ReachedAll n ls1

/-- The counters of a system are consistent: `pos` is a position in `lines`, every row
has its value, `pos` has not passed `n`, and `ready` is only set on a full system. -/
def Counts (ls : LinearSystem) : Prop :=
  0 ≤ ls.pos ∧ ls.pos ≤ (ls.lines.length : Int) ∧ ls.lines.length = ls.y.length ∧
    (ls.pos ≤ ls.n ∨ ls.pos = 0) ∧ (ls.ready = true → ls.n ≤ ls.pos)

/-- The caller feeding equations one after the other: every `(coefficients, value)` pair
goes to `Add`, and the results are collected in order. -/
def AddAll (ls : LinearSystem) : List (bitSet × bitSet) → Outcome LinearSystem (List Bool)
  | [] => .returns [] ls
  | eq :: rest =>
    match ls.Add eq.1 eq.2 with
    | .panics e ls1 => .panics e ls1
    | .returns b ls1 =>
      match AddAll ls1 rest with
      | .panics e ls2 => .panics e ls2
      | .returns bs ls2 => .returns (b :: bs) ls2

/-- The whole decoding run of the caller: feed the equations to a fresh system with
`n` unknowns, then `Backtrack`, then `Solve`. -/
def Decode (n : Int) (eqs : List (bitSet × bitSet)) : Outcome LinearSystem (List Bool × List bitSet) :=
  match AddAll (empty n) eqs with
  | .panics e ls => .panics e ls
  | .returns bs ls =>
    match ls.Backtrack with
    | .panics e ls1 => .panics e ls1
    | .returns _ ls1 =>
      match ls1.Solve with
      | .panics e ls2 => .panics e ls2
      | .returns x ls2 => .returns (bs, x) ls2

/-- The end-to-end example (`n = 2`, blocks of 8 bits) after `Add` of equation A,
coefficients `[1,0]` and value `00000001`. -/
def afterA : LinearSystem :=
  { n := 2, lines := [⟨[1], 2⟩], y := [⟨[1], 8⟩], pos := 1, ready := false }

/-- The end-to-end example after `Add` of equation B, coefficients `[1,1]` and value
`00000011`. -/
def afterB : LinearSystem :=
  { n := 2, lines := [⟨[1], 2⟩, ⟨[2], 2⟩], y := [⟨[1], 8⟩, ⟨[3], 8⟩], pos := 2, ready := false }

/-- The end-to-end example after `Backtrack`. -/
def afterBacktrack : LinearSystem :=
  { afterB with ready := true }

/-- Coefficient vectors for a run with 65 unknowns, two words each: number `j` has its
bit `j` set, and number 0 has its bit 64 set as well. -/
def fedRow (j : Nat) : bitSet :=
  { a := [2 ^ j, if j = 0 then 1 else 0], n := 65 }

/-- Row `j` of that run as it is stored once promoted. -/
def pivotRow (j : Nat) : bitSet :=
  { a := [2 ^ j, if j < 2 then 1 else 0], n := 65 }

/-- The system with 65 unknowns after `Add(fedRow j, fedRow j)` for `j = 0, ..., k-1`:
the value given with each equation is a copy of its coefficient vector, so that `y`
records which vector stands behind each pivot row. -/
def fedState (k : Nat) : LinearSystem :=
  { n := 65, lines := (List.range k).map pivotRow, y := (List.range k).map fedRow,
    pos := k, ready := false }

/-- The exclusive or of `fedRow 0` and `fedRow 1`: bits 0, 1 and 64. -/
def dependentRow : bitSet :=
  { a := [3, 1], n := 65 }

/-- The system of `fedState 64` after `Add(dependentRow, dependentRow)`. -/
def fedStateFull : LinearSystem :=
  { n := 65, lines := (fedState 64).lines ++ [⟨[0, 1], 65⟩],
    y := (fedState 64).y ++ [dependentRow], pos := 65, ready := false }

end LinearSystem

end Ezhik

namespace Ezhik

theorem getAt_of_lt {α : Type} (s : List α) (i : Int) (h0 : 0 ≤ i) (h : i.toNat < s.length) :
    ∃ x, getAt s i = some x ∧ x ∈ s ∧ s[i.toNat]? = some x := by
  refine ⟨s[i.toNat], ?_, List.getElem_mem h, List.getElem?_eq_getElem h⟩
  unfold getAt
  rw [if_neg (not_lt.mpr h0)]
  exact List.getElem?_eq_getElem h

theorem mem_of_mem_set {α : Type} {s : List α} {k : Nat} {x y : α} (h : y ∈ s.set k x) :
    y ∈ s ∨ y = x := by
  rcases List.mem_or_eq_of_mem_set h with h1 | h1
  · exact Or.inl h1
  · exact Or.inr h1

namespace bitSet

theorem Inv.index_lt {bs : bitSet} (h : bs.Inv) {i : Int} (h0 : 0 ≤ i) (hi : i < bs.n) :
    (i / 64).toNat < bs.a.length := by
  have h2 := h.2.1
  rw [Int.tdiv_eq_ediv (by omega) (by decide)] at h2
  omega

theorem Has_ok {bs : bitSet} (h : bs.Inv) {i : Int} (h0 : 0 ≤ i) (hi : i < bs.n) :
    ∃ b, bs.Has i = .ok b := by
  obtain ⟨w, hw, -, -⟩ := getAt_of_lt bs.a (i / 64) (by omega) (h.index_lt h0 hi)
  exact ⟨w >>> (i % 64).toNat != 0, by simp only [Has, hw]⟩

theorem Set_ok {bs : bitSet} (h : bs.Inv) {i : Int} (h0 : 0 ≤ i) (hi : i < bs.n) (val : Bool) :
    ∃ bs1, bs.Set i val = .returns () bs1 ∧ bs1.Inv ∧ bs1.n = bs.n := by
  obtain ⟨w, hw, hmem, -⟩ := getAt_of_lt bs.a (i / 64) (by omega) (h.index_lt h0 hi)
  refine ⟨bitSet.mk (List.set bs.a (i / 64).toNat
      (if val then w ||| (1 <<< (i % 64).toNat)
       else w &&& (allOnes ^^^ (1 <<< (i % 64).toNat)))) bs.n, by simp only [Set, hw],
    ⟨h.1, ?_, ?_⟩, rfl⟩
  · simpa using h.2.1
  · intro x hx
    rcases mem_of_mem_set hx with hx | hx
    · exact h.2.2 x hx
    · have hwlt := h.2.2 w hmem
      have hs : (i % 64).toNat < 64 := by omega
      subst hx
      cases val
      · simp only [Bool.false_eq_true, if_false]
        exact lt_of_le_of_lt Nat.and_le_left hwlt
      · simp only [if_true]
        apply Nat.or_lt_two_pow hwlt
        rw [Nat.one_shiftLeft]
        exact Nat.pow_lt_pow_right (by decide) hs

theorem XorWithLoop_ok (n : Int) (arg : bitSet → bitSet)
    (harg : ∀ v, Fits n v → Fits n (arg v)) :
    ∀ (k : Nat) (i : Int) (bs : bitSet), Fits n bs → 0 ≤ i → (k = 0 ∨ i + k ≤ n) →
      ∃ bs1, XorWithLoop arg k i bs = .returns () bs1 ∧ Fits n bs1 := by
  intro k
  induction k with
  | zero => intro i bs hbs _ _; exact ⟨bs, rfl, hbs⟩
  | succ k ih =>
    intro i bs hbs h0 hk
    have hin : i < bs.n := by
      have := hbs.2; unfold Len at this; omega
    obtain ⟨p, hp⟩ := Has_ok hbs.1 h0 hin
    have ha := harg bs hbs
    obtain ⟨q, hq⟩ := Has_ok ha.1 h0 (by have := ha.2; have := hbs.2; unfold Len at *; omega)
    obtain ⟨bs1, hs, hinv, hn⟩ := Set_ok hbs.1 h0 hin (p != q)
    have hf1 : Fits n bs1 := ⟨hinv, by have := hbs.2; unfold Len at *; omega⟩
    obtain ⟨bs2, h2, hf2⟩ := ih (i + 1) bs1 hf1 (by omega) (by
      have := hbs.2; unfold Len at this; omega)
    exact ⟨bs2, by simp only [XorWithLoop, hp, hq, hs, h2], hf2⟩

theorem XorWithFrom_ok (n : Int) (arg : bitSet → bitSet)
    (harg : ∀ v, Fits n v → Fits n (arg v)) (bs : bitSet) (hbs : Fits n bs) :
    ∃ bs1, XorWithFrom arg bs = .returns () bs1 ∧ Fits n bs1 := by
  have ha := harg bs hbs
  unfold XorWithFrom
  rw [if_neg (by rw [hbs.2, ha.2]; simp)]
  apply XorWithLoop_ok n arg harg _ _ _ hbs (le_refl _)
  have := hbs.2; unfold Len at this
  omega

theorem XorWith_ok {n : Int} {bs set : bitSet} (hbs : Fits n bs) (hset : Fits n set) :
    ∃ bs1, bs.XorWith set = .returns () bs1 ∧ Fits n bs1 :=
  XorWithFrom_ok n _ (fun _ _ => hset) bs hbs

theorem XorWithSelf_ok {n : Int} {bs : bitSet} (hbs : Fits n bs) :
    ∃ bs1, bs.XorWithSelf = .returns () bs1 ∧ Fits n bs1 :=
  XorWithFrom_ok n _ (fun _ h => h) bs hbs

end bitSet
end Ezhik

namespace Ezhik
namespace LinearSystem
open bitSet

theorem Shape.set_row {ls : LinearSystem} (h : Shape ls) (k : Nat) (r : bitSet)
    (hr : Fits ls.n r) : Shape { ls with lines := List.set ls.lines k r } := by
  refine ⟨?_, ?_, h.pos_nonneg, ?_, h.pos_le_n⟩
  · intro x hx
    rcases mem_of_mem_set hx with hx | hx
    · exact h.rows x hx
    · exact hx ▸ hr
  · simpa using h.lens
  · simpa using h.pos_le_len

theorem RowsOnly.refl (ls : LinearSystem) : RowsOnly ls ls :=
  ⟨rfl, rfl, rfl, rfl, rfl⟩

theorem RowsOnly.trans {a b c : LinearSystem} (h1 : RowsOnly a b) (h2 : RowsOnly b c) :
    RowsOnly a c :=
  ⟨h2.1.trans h1.1, h2.2.1.trans h1.2.1, h2.2.2.1.trans h1.2.2.1,
    h2.2.2.2.1.trans h1.2.2.2.1, h2.2.2.2.2.trans h1.2.2.2.2⟩

theorem Eliminate_ok {ls : LinearSystem} (h : Shape ls) {dst src : Int}
    (hd0 : 0 ≤ dst) (hd : dst < ls.lines.length) (hs0 : 0 ≤ src)
    (hs : src < ls.lines.length) (hsn : src < ls.n) :
    ∃ ls1, ls.Eliminate dst src = .returns () ls1 ∧ Shape ls1 ∧ RowsOnly ls ls1 := by
  obtain ⟨d, hgd, hdm, -⟩ := getAt_of_lt ls.lines dst hd0 (by omega)
  obtain ⟨s, hgs, hsm, -⟩ := getAt_of_lt ls.lines src hs0 (by omega)
  have hdf := h.rows d hdm
  have hsf := h.rows s hsm
  obtain ⟨b, hb⟩ := Has_ok hdf.1 hs0 (by have := hdf.2; unfold Len at this; omega)
  cases b with
  | false => exact ⟨ls, by simp only [Eliminate, hgd, hb], h, RowsOnly.refl ls⟩
  | true =>
    by_cases hds : dst = src
    · obtain ⟨d1, hx, hf⟩ := XorWithSelf_ok hdf
      exact ⟨{ ls with lines := List.set ls.lines dst.toNat d1 },
        by simp only [Eliminate, hgd, hb, hgs, if_pos hds, hx],
        h.set_row _ _ hf, ⟨rfl, rfl, rfl, rfl, by simp⟩⟩
    · obtain ⟨d1, hx, hf⟩ := XorWith_ok hdf hsf
      exact ⟨{ ls with lines := List.set ls.lines dst.toNat d1 },
        by simp only [Eliminate, hgd, hb, hgs, if_neg hds, hx],
        h.set_row _ _ hf, ⟨rfl, rfl, rfl, rfl, by simp⟩⟩

theorem EliminateSrcRangeLoop_ok (dst src : Int) :
    ∀ (k : Nat) (i : Int) (ls : LinearSystem), Shape ls → 0 ≤ dst → dst < ls.lines.length →
      0 ≤ src + i → (k = 0 ∨ (src + i + k ≤ ls.lines.length ∧ src + i + k ≤ ls.n)) →
      ∃ ls1, EliminateSrcRangeLoop dst src k i ls = .returns () ls1 ∧ Shape ls1 ∧
        RowsOnly ls ls1 := by
  intro k
  induction k with
  | zero => intro i ls h _ _ _ _; exact ⟨ls, rfl, h, RowsOnly.refl ls⟩
  | succ k ih =>
    intro i ls h hd0 hd hi hk
    obtain ⟨ls1, he, h1, f1⟩ := Eliminate_ok h hd0 hd hi (by omega) (by omega)
    obtain ⟨ls2, hl, h2, f2⟩ := ih (i + 1) ls1 h1 hd0 (by rw [f1.2.2.2.2]; exact hd)
      (by omega) (by rw [f1.2.2.2.2, f1.1]; omega)
    exact ⟨ls2, by simp only [EliminateSrcRangeLoop, he, hl], h2, f1.trans f2⟩

theorem EliminateDstRangeLoop_ok (dst src : Int) :
    ∀ (k : Nat) (i : Int) (ls : LinearSystem), Shape ls → 0 ≤ src → src < ls.lines.length →
      src < ls.n → 0 ≤ dst + i → (k = 0 ∨ dst + i + k ≤ ls.lines.length) →
      ∃ ls1, EliminateDstRangeLoop dst src k i ls = .returns () ls1 ∧ Shape ls1 ∧
        RowsOnly ls ls1 := by
  intro k
  induction k with
  | zero => intro i ls h _ _ _ _ _; exact ⟨ls, rfl, h, RowsOnly.refl ls⟩
  | succ k ih =>
    intro i ls h hs0 hs hsn hi hk
    obtain ⟨ls1, he, h1, f1⟩ := Eliminate_ok h hi (by omega) hs0 hs hsn
    obtain ⟨ls2, hl, h2, f2⟩ := ih (i + 1) ls1 h1 hs0 (by rw [f1.2.2.2.2]; exact hs)
      (by rw [f1.1]; exact hsn) (by omega) (by rw [f1.2.2.2.2]; omega)
    exact ⟨ls2, by simp only [EliminateDstRangeLoop, he, hl], h2, f1.trans f2⟩

theorem FindOneLoop_ok (ls : LinearSystem) (h : Shape ls) (base index : Int)
    (hx0 : 0 ≤ index) (hxn : index < ls.n) :
    ∀ (k : Nat) (i : Int), 0 ≤ base + i → (k = 0 ∨ base + i + k ≤ ls.lines.length) →
      ∃ r, FindOneLoop ls base index k i = .ok r ∧
        (r = -1 ∨ (base + i ≤ r ∧ r < base + i + k)) := by
  intro k
  induction k with
  | zero => intro i _ _; exact ⟨-1, rfl, Or.inl rfl⟩
  | succ k ih =>
    intro i hi hk
    obtain ⟨d, hgd, hdm, -⟩ := getAt_of_lt ls.lines (base + i) hi (by omega)
    have hdf := h.rows d hdm
    obtain ⟨b, hb⟩ := Has_ok hdf.1 hx0 (by have := hdf.2; unfold Len at this; omega)
    cases b with
    | true =>
      exact ⟨base + i, by simp only [FindOneLoop, hgd, hb], Or.inr ⟨le_refl _, by omega⟩⟩
    | false =>
      obtain ⟨r, hr, hrr⟩ := ih (i + 1) (by omega) (by omega)
      refine ⟨r, by simp only [FindOneLoop, hgd, hb, hr], ?_⟩
      rcases hrr with hrr | hrr
      · exact Or.inl hrr
      · exact Or.inr ⟨by omega, by omega⟩

end LinearSystem
end Ezhik

namespace Ezhik
namespace LinearSystem
open bitSet

theorem Promote_ok {ls : LinearSystem} (h : Shape ls) (index : Int) (hpn : ls.pos < ls.n)
    (hpi : ls.pos ≤ index) (hil : index < ls.lines.length) :
    ∃ ls1, ls.Promote index = .returns () ls1 ∧ Shape ls1 ∧ ls1.n = ls.n ∧
      ls1.pos = ls.pos + 1 ∧ ls1.ready = ls.ready ∧ ls1.lines.length = ls.lines.length ∧
      ∀ v ∈ ls1.y, v ∈ ls.y := by
  have hp0 := h.pos_nonneg
  have hlen := h.lens
  obtain ⟨li, hgi, himem, -⟩ := getAt_of_lt ls.lines index (by omega) (by omega)
  obtain ⟨lp, hgp, hpmem, -⟩ := getAt_of_lt ls.lines ls.pos hp0 (by omega)
  obtain ⟨yi, hyi, hyim, -⟩ := getAt_of_lt ls.y index (by omega) (by omega)
  obtain ⟨yp, hyp, hypm, -⟩ := getAt_of_lt ls.y ls.pos hp0 (by omega)
  -- the rows after the swap
  have hrows : ∀ r ∈ List.set (List.set ls.lines ls.pos.toNat li) index.toNat lp,
      Fits ls.n r := by
    intro r hr
    rcases mem_of_mem_set hr with hr | hr
    · rcases mem_of_mem_set hr with hr | hr
      · exact h.rows r hr
      · exact hr ▸ h.rows li himem
    · exact hr ▸ h.rows lp hpmem
  have hys : ∀ v ∈ List.set (List.set ls.y ls.pos.toNat yi) index.toNat yp, v ∈ ls.y := by
    intro r hr
    rcases mem_of_mem_set hr with hr | hr
    · rcases mem_of_mem_set hr with hr | hr
      · exact hr
      · exact hr ▸ hyim
    · exact hr ▸ hypm
  obtain ⟨r, hgr, hrm, -⟩ := getAt_of_lt
    (List.set (List.set ls.lines ls.pos.toNat li) index.toNat lp) ls.pos hp0
    (by simp only [List.length_set]; omega)
  have hrf := hrows r hrm
  obtain ⟨r1, hset, hr1inv, hr1n⟩ := Set_ok hrf.1 hp0
    (by have := hrf.2; unfold Len at this; omega) true
  have hr1 : Fits ls.n r1 := ⟨hr1inv, by have := hrf.2; unfold Len at *; omega⟩
  have hsh : Shape
      { n := ls.n,
        lines := List.set (List.set (List.set ls.lines ls.pos.toNat li) index.toNat lp)
          ls.pos.toNat r1,
        y := List.set (List.set ls.y ls.pos.toNat yi) index.toNat yp,
        pos := ls.pos + 1, ready := ls.ready } := by
    refine ⟨?_, ?_, ?_, ?_, ?_⟩
    · intro x hx
      rcases mem_of_mem_set hx with hx | hx
      · exact hrows x hx
      · exact hx ▸ hr1
    · simp only [List.length_set]; exact hlen
    · show 0 ≤ ls.pos + 1
      omega
    · show ls.pos + 1 ≤ _
      simp only [List.length_set]; omega
    · left; show ls.pos + 1 ≤ ls.n; omega
  obtain ⟨ls4, he, h4, f4⟩ := EliminateDstRangeLoop_ok (ls.pos + 1) (ls.pos + 1 - 1)
    ((((List.set (List.set (List.set ls.lines ls.pos.toNat li) index.toNat lp)
          ls.pos.toNat r1).length : Int) - (ls.pos + 1)).toNat) 0 _ hsh
    (by omega) (by simp only [List.length_set]; omega) (by show ls.pos + 1 - 1 < ls.n; omega)
    (by omega) (by right; simp only [List.length_set]; omega)
  refine ⟨ls4, ?_, h4, f4.1, f4.2.1, f4.2.2.2.1, ?_, ?_⟩
  · simp only [Promote, hgi, hgp, hyi, hyp, hgr, hset, EliminateDstRange]
    exact he
  · rw [f4.2.2.2.2]; simp only [List.length_set]
  · rw [f4.2.2.1]; exact hys

theorem AddSweep_ok :
    ∀ (fuel : Nat) (ls : LinearSystem), Shape ls → ls.pos ≤ ls.n → ls.n - ls.pos ≤ fuel →
      ∃ ls1, AddSweep fuel ls = .returns () ls1 ∧ Shape ls1 ∧ ls1.n = ls.n ∧
        ls.pos ≤ ls1.pos ∧ ls1.pos ≤ ls1.n ∧ ls1.ready = ls.ready ∧
        ls1.lines.length = ls.lines.length ∧ ∀ v ∈ ls1.y, v ∈ ls.y := by
  intro fuel
  induction fuel with
  | zero =>
    intro ls h hle hf
    refine ⟨ls, ?_, h, rfl, le_refl _, hle, rfl, rfl, fun v hv => hv⟩
    unfold AddSweep
    rw [if_neg (by omega)]
  | succ f ih =>
    intro ls h hle hf
    by_cases hlt : ls.pos < ls.n
    · have hp0 := h.pos_nonneg
      have hpl := h.pos_le_len
      obtain ⟨i, hfo, hi⟩ := FindOneLoop_ok ls h ls.pos ls.pos hp0 hlt
        (((ls.lines.length : Int) - ls.pos).toNat) 0 (by omega) (by right; omega)
      by_cases him : i = -1
      · refine ⟨ls, ?_, h, rfl, le_refl _, hle, rfl, rfl, fun v hv => hv⟩
        unfold AddSweep
        simp only [if_pos hlt, FindOne, hfo, if_pos him]
      · have hir : ls.pos ≤ i ∧ i < ls.lines.length := by
          rcases hi with hi | hi
          · exact absurd hi him
          · omega
        obtain ⟨ls1, hpr, h1, hn1, hp1, hr1, hl1, hy1⟩ := Promote_ok h i hlt hir.1 hir.2
        obtain ⟨ls2, hsw, h2, hn2, hp2, hpn2, hr2, hl2, hy2⟩ := ih ls1 h1 (by omega) (by omega)
        refine ⟨ls2, ?_, h2, hn2.trans hn1, by omega, hpn2, hr2.trans hr1, hl2.trans hl1,
          fun v hv => hy1 v (hy2 v hv)⟩
        unfold AddSweep
        simp only [if_pos hlt, FindOne, hfo, if_neg him, hpr]
        exact hsw
    · refine ⟨ls, ?_, h, rfl, le_refl _, hle, rfl, rfl, fun v hv => hv⟩
      unfold AddSweep
      rw [if_neg hlt]

end LinearSystem
end Ezhik

namespace Ezhik
namespace LinearSystem
open bitSet

theorem Shape.empty (n : Int) : Shape (empty n) :=
  ⟨fun _ hr => absurd hr (List.not_mem_nil _), rfl, le_refl _, le_refl _, Or.inr rfl⟩

theorem Add_ok {ls : LinearSystem} (h : Shape ls) (line y : bitSet) (hl : Fits ls.n line) :
    ∃ b ls1, ls.Add line y = .returns b ls1 ∧ Shape ls1 ∧ ls1.n = ls.n ∧
      ls1.ready = ls.ready ∧ (b = true ↔ ls.n ≤ ls1.pos) ∧ ls.pos ≤ ls1.pos ∧
      (ls1.lines.length : Int) ≤ ls.lines.length + 1 ∧ (∀ v ∈ ls1.y, v ∈ ls.y ∨ v = y) := by
  by_cases hge : ls.pos ≥ ls.n
  · refine ⟨true, ls, ?_, h, rfl, rfl, ?_, le_refl _, by omega, fun v hv => Or.inl hv⟩
    · unfold Add; rw [if_pos hge]
    · simp only [true_iff]; exact hge
  · have hp0 := h.pos_nonneg
    have hpl := h.pos_le_len
    have hlen := h.lens
    have hsh1 : Shape { ls with lines := ls.lines ++ [line], y := ls.y ++ [y] } := by
      refine ⟨?_, ?_, hp0, ?_, h.pos_le_n⟩
      · intro r hr
        rcases List.mem_append.mp hr with hr | hr
        · exact h.rows r hr
        · rw [List.mem_singleton] at hr; exact hr ▸ hl
      · simp only [List.length_append, List.length_singleton]; omega
      · simp only [List.length_append, List.length_singleton]; push_cast; omega
    obtain ⟨ls2, he, h2, f2⟩ := EliminateSrcRangeLoop_ok
      (((ls.lines ++ [line]).length : Int) - 1) 0 ls.pos.toNat 0 _ hsh1
      (by simp only [List.length_append, List.length_singleton]; push_cast; omega)
      (by simp only [List.length_append, List.length_singleton]; push_cast; omega)
      (by omega)
      (by right; simp only [List.length_append, List.length_singleton]; push_cast; omega)
    have hl2 : (ls2.lines.length : Int) = ls.lines.length + 1 := by
      rw [f2.2.2.2.2]; simp only [List.length_append, List.length_singleton]; push_cast; rfl
    have hn2 : ls2.n = ls.n := f2.1
    have hp2 : ls2.pos = ls.pos := f2.2.1
    have hy2 : ls2.y = ls.y ++ [y] := f2.2.2.1
    have hr2 : ls2.ready = ls.ready := f2.2.2.2.1
    have hymem : ∀ v ∈ ls2.y, v ∈ ls.y ∨ v = y := by
      intro v hv
      rw [hy2] at hv
      rcases List.mem_append.mp hv with hv | hv
      · exact Or.inl hv
      · rw [List.mem_singleton] at hv; exact Or.inr hv
    obtain ⟨r, hgr, hrm, -⟩ := getAt_of_lt ls2.lines (((ls.lines ++ [line]).length : Int) - 1)
      (by simp only [List.length_append, List.length_singleton]; push_cast; omega)
      (by simp only [List.length_append, List.length_singleton]; push_cast; omega)
    have hrf := h2.rows r hrm
    obtain ⟨b, hb⟩ := Has_ok hrf.1 (i := ls2.pos) (by omega)
      (by have := hrf.2; unfold Len at this; omega)
    cases b with
    | false =>
      refine ⟨false, ls2, ?_, h2, hn2, hr2, ?_, by omega, by omega, hymem⟩
      · unfold Add; rw [if_neg hge]
        simp only [EliminateSrcRange, he, hgr, hb]
      · simp only [Bool.false_eq_true, false_iff]; omega
    | true =>
      obtain ⟨ls3, hpr, h3, hn3, hp3, hr3, hl3, hy3⟩ := Promote_ok h2
        (((ls.lines ++ [line]).length : Int) - 1) (by omega)
        (by simp only [List.length_append, List.length_singleton]; push_cast; omega)
        (by simp only [List.length_append, List.length_singleton]; push_cast; omega)
      obtain ⟨ls4, hsw, h4, hn4, hp4, hpn4, hr4, hl4, hy4⟩ :=
        AddSweep_ok (ls3.n - ls3.pos).toNat ls3 h3 (by omega) (by omega)
      refine ⟨decide (ls4.pos = ls4.n), ls4, ?_, h4, by omega, by rw [hr4, hr3, hr2], ?_,
        by omega, by omega, fun v hv => hymem v (hy3 v (hy4 v hv))⟩
      · unfold Add; rw [if_neg hge]
        simp only [EliminateSrcRange, he, hgr, hb, hpr, hsw]
      · simp only [decide_eq_true_eq]; omega

theorem Reached.has_shape {n : Int} {ls : LinearSystem} (h : Reached n ls) :
    Shape ls ∧ ls.n = n := by
  induction h with
  | start => exact ⟨Shape.empty n, rfl⟩
  | add ls ls1 line y b _ hl ha ih =>
    obtain ⟨b1, ls2, hadd, hs, hn, -⟩ := Add_ok ih.1 line y (by rw [ih.2]; exact hl)
    rw [hadd] at ha
    injection ha with hb hls
    subst hls
    exact ⟨hs, hn.trans ih.2⟩

end LinearSystem
end Ezhik

namespace Ezhik
namespace LinearSystem
open bitSet

theorem EliminateDstRange_ok {ls : LinearSystem} (h : Shape ls) (src count : Int)
    (hs0 : 0 ≤ src) (hs : src < ls.lines.length) (hsn : src < ls.n)
    (hc : count ≤ ls.lines.length) :
    ∃ ls1, ls.EliminateDstRange 0 count src = .returns () ls1 ∧ Shape ls1 ∧
      RowsOnly ls ls1 := by
  unfold EliminateDstRange
  exact EliminateDstRangeLoop_ok 0 src count.toNat 0 ls h hs0 hs hsn (by omega) (by omega)

theorem BacktrackLoop_ok :
    ∀ (k : Nat) (i : Int) (ls : LinearSystem), Shape ls →
      (k = 0 ∨ (i = k ∧ i < ls.n ∧ i < ls.lines.length)) →
      ∃ ls1, BacktrackLoop k i ls = .returns () ls1 ∧ Shape ls1 ∧ RowsOnly ls ls1 := by
  intro k
  induction k with
  | zero => intro i ls h _; exact ⟨ls, rfl, h, RowsOnly.refl ls⟩
  | succ k ih =>
    intro i ls h hk
    have hk1 : i = (k + 1 : Nat) ∧ i < ls.n ∧ i < ls.lines.length := by
      rcases hk with hk | hk
      · exact absurd hk (Nat.succ_ne_zero k)
      · exact hk
    obtain ⟨ls1, he, h1, f1⟩ := EliminateDstRange_ok h i (i - 1)
      (by omega) hk1.2.2 hk1.2.1 (by omega)
    obtain ⟨ls2, hl, h2, f2⟩ := ih (i - 1) ls1 h1 (by
      rw [f1.1, f1.2.2.2.2]
      by_cases hk0 : k = 0
      · exact Or.inl hk0
      · right; refine ⟨?_, ?_, ?_⟩ <;> omega)
    exact ⟨ls2, by simp only [BacktrackLoop, he, hl], h2, f1.trans f2⟩

theorem Backtrack_ok {ls : LinearSystem} (h : Shape ls) (hge : ¬ ls.pos < ls.n) :
    ∃ ls1, ls.Backtrack = .returns () ls1 ∧ Shape ls1 ∧ ls1.ready = true ∧ ls1.n = ls.n ∧
      ls1.pos = ls.pos ∧ ls1.y = ls.y ∧ ls1.lines.length = ls.lines.length := by
  have hpl := h.pos_le_len
  obtain ⟨ls1, hl, h1, f1⟩ := BacktrackLoop_ok (ls.n - 1).toNat (ls.n - 1) ls h (by
    by_cases hn : (ls.n - 1).toNat = 0
    · exact Or.inl hn
    · right; refine ⟨?_, ?_, ?_⟩ <;> omega)
  refine ⟨{ ls1 with ready := true }, ?_, ⟨h1.rows, h1.lens, h1.pos_nonneg, h1.pos_le_len,
    h1.pos_le_n⟩, rfl, f1.1, f1.2.1, f1.2.2.1, f1.2.2.2.2⟩
  unfold Backtrack
  rw [if_neg hge]
  simp only [hl]

theorem Backtrack_early {ls : LinearSystem} (hlt : ls.pos < ls.n) :
    ls.Backtrack = .panics .backtrackTooEarly ls := by
  unfold Backtrack
  rw [if_pos hlt]

theorem AddAll_reached {n : Int} :
    ∀ (eqs : List (bitSet × bitSet)) (ls ls1 : LinearSystem) (bs : List Bool),
      Reached n ls → (∀ e ∈ eqs, Fits n e.1) → AddAll ls eqs = .returns bs ls1 →
      Reached n ls1 := by
  intro eqs
  induction eqs with
  | nil =>
    intro ls ls1 bs h _ ha
    simp only [AddAll] at ha
    injection ha with _ hls
    exact hls ▸ h
  | cons e rest ih =>
    intro ls ls1 bs h hfit ha
    obtain ⟨b, ls2, hadd, -⟩ := Add_ok h.has_shape.1 e.1 e.2
      (by rw [h.has_shape.2]; exact hfit e (List.mem_cons_self _ _))
    have h2 : Reached n ls2 :=
      Reached.add ls ls2 e.1 e.2 b h (hfit e (List.mem_cons_self _ _)) hadd
    simp only [AddAll, hadd] at ha
    cases hrest : AddAll ls2 rest with
    | panics e1 s1 => rw [hrest] at ha; cases ha
    | returns bs1 s1 =>
      rw [hrest] at ha
      injection ha with _ hls
      exact hls ▸ ih ls2 s1 bs1 h2 (fun e1 he1 => hfit e1 (List.mem_cons_of_mem _ he1)) hrest

theorem AddAll_short {n : Int} :
    ∀ (eqs : List (bitSet × bitSet)) (ls : LinearSystem), Shape ls → ls.n = n →
      (∀ e ∈ eqs, Fits n e.1) → (ls.lines.length : Int) + eqs.length < n →
      ∃ ls1, AddAll ls eqs = .returns (List.replicate eqs.length false) ls1 ∧ Shape ls1 ∧
        ls1.n = n ∧ (ls1.lines.length : Int) ≤ ls.lines.length + eqs.length := by
  intro eqs
  induction eqs with
  | nil => intro ls h hn _ _; exact ⟨ls, rfl, h, hn, by simp⟩
  | cons e rest ih =>
    intro ls h hn hfit hlen
    simp only [List.length_cons] at hlen
    push_cast at hlen
    obtain ⟨b, ls2, hadd, h2, hn2, -, hb, -, hl2, -⟩ := Add_ok h e.1 e.2
      (by rw [hn]; exact hfit e (List.mem_cons_self _ _))
    have hpl := h2.pos_le_len
    have hbf : b = false := by
      cases b with
      | false => rfl
      | true => have := hb.mp rfl; omega
    subst hbf
    obtain ⟨ls3, hrest, h3, hn3, hl3⟩ := ih ls2 h2 (hn2.trans hn)
      (fun e1 he1 => hfit e1 (List.mem_cons_of_mem _ he1)) (by omega)
    refine ⟨ls3, ?_, h3, hn3, ?_⟩
    · simp only [AddAll, hadd, hrest, List.length_cons, List.replicate_succ]
    · simp only [List.length_cons]; push_cast; omega

end LinearSystem
end Ezhik

namespace Ezhik
namespace bitSet

theorem NewBitSet_ok {n : Int} {v : bitSet} (h : Fits n v) :
    ∃ x, NewBitSet n = .ok x ∧ Fits n x := by
  obtain ⟨⟨h1, h2, -⟩, h3⟩ := h
  unfold Len at h3
  subst h3
  have h4 : 0 ≤ (v.n + 63).tdiv 64 := by rw [← h2]; exact Int.natCast_nonneg _
  refine ⟨⟨List.replicate ((v.n + 63).tdiv 64).toNat 0, v.n⟩, ?_, ⟨h1, ?_, ?_⟩, rfl⟩
  · unfold NewBitSet
    rw [if_neg (by omega), if_neg (by omega)]
  · show ((List.replicate ((v.n + 63).tdiv 64).toNat 0).length : Int) = _
    rw [List.length_replicate]
    exact Int.toNat_of_nonneg h4
  · intro w hw
    rw [List.eq_of_mem_replicate hw]
    exact Nat.two_pow_pos 64

end bitSet

namespace LinearSystem
open bitSet

theorem SolveRow_ok {ls : LinearSystem} (h : Shape ls) {bl : Int}
    (hy : ∀ v ∈ ls.y, Fits bl v) (i : Int) (hi0 : 0 ≤ i) (hi : i < ls.lines.length) :
    ∀ (k : Nat) (j : Int) (x : bitSet), Fits bl x → 0 ≤ j →
      (k = 0 ∨ (j + k ≤ ls.n ∧ j + k ≤ ls.lines.length)) →
      ∃ x1, SolveRow ls i k j x = .ok x1 ∧ Fits bl x1 := by
  obtain ⟨r, hgr, hrm, -⟩ := getAt_of_lt ls.lines i hi0 (by omega)
  have hrf := h.rows r hrm
  have hlen := h.lens
  intro k
  induction k with
  | zero => intro j x hx _ _; exact ⟨x, rfl, hx⟩
  | succ k ih =>
    intro j x hx hj hk
    obtain ⟨b, hb⟩ := Has_ok hrf.1 hj (by have := hrf.2; unfold Len at this; omega)
    cases b with
    | false =>
      obtain ⟨x1, h1, hf1⟩ := ih (j + 1) x hx (by omega) (by omega)
      exact ⟨x1, by simp only [SolveRow, hgr, hb, h1], hf1⟩
    | true =>
      obtain ⟨v, hgv, hvm, -⟩ := getAt_of_lt ls.y j hj (by omega)
      obtain ⟨x2, hx2, hf2⟩ := XorWith_ok hx (hy v hvm)
      obtain ⟨x1, h1, hf1⟩ := ih (j + 1) x2 hf2 (by omega) (by omega)
      exact ⟨x1, by simp only [SolveRow, hgr, hb, hgv, hx2, h1], hf1⟩

theorem SolveLoop_ok {ls : LinearSystem} (h : Shape ls) {bl : Int}
    (hy : ∀ v ∈ ls.y, Fits bl v) (y0 : bitSet) (hy0 : Fits bl y0)
    (hnl : ls.n ≤ ls.lines.length) :
    ∀ (k : Nat) (i : Int), 0 ≤ i → (k = 0 ∨ i + k ≤ ls.lines.length) →
      ∃ xs, SolveLoop ls bl k i = .ok xs ∧ xs.length = k ∧ ∀ v ∈ xs, Fits bl v := by
  obtain ⟨x0, hnew, hx0⟩ := NewBitSet_ok hy0
  intro k
  induction k with
  | zero => intro i _ _; exact ⟨[], rfl, rfl, fun _ hv => absurd hv (List.not_mem_nil _)⟩
  | succ k ih =>
    intro i hi hk
    obtain ⟨xi, hrow, hxi⟩ := SolveRow_ok h hy i hi (by omega) ls.n.toNat 0 x0 hx0
      (le_refl _) (by omega)
    obtain ⟨rest, hrest, hlen, hfit⟩ := ih (i + 1) (by omega) (by omega)
    refine ⟨xi :: rest, by simp only [SolveLoop, hnew, hrow, hrest], by simp [hlen], ?_⟩
    intro v hv
    rcases List.mem_cons.mp hv with hv | hv
    · exact hv ▸ hxi
    · exact hfit v hv

theorem Solve_ok {ls : LinearSystem} (h : Shape ls) {bl : Int}
    (hy : ∀ v ∈ ls.y, Fits bl v) (hr : ls.ready = true) (hn : 1 ≤ ls.n)
    (hnp : ls.n ≤ ls.pos) :
    ∃ x, ls.Solve = .returns x ls ∧ (x.length : Int) = ls.n ∧ ∀ v ∈ x, Fits bl v := by
  have hpl := h.pos_le_len
  have hlen := h.lens
  obtain ⟨y0, hg0, hm0, -⟩ := getAt_of_lt ls.y 0 (le_refl _) (by simp only [Int.toNat_zero]; omega)
  have hy0 := hy y0 hm0
  obtain ⟨xs, hxs, hl, hf⟩ := SolveLoop_ok h hy y0 hy0 (by omega) ls.n.toNat 0 (le_refl _)
    (by omega)
  refine ⟨xs, ?_, by omega, hf⟩
  unfold Solve
  simp only [hr, Bool.not_true, Bool.false_eq_true, if_false, hg0, hy0.2, hxs]
  rw [if_neg (by omega)]

theorem Solve_not_ready {ls : LinearSystem} (hr : ls.ready = false) :
    ls.Solve = .panics .solveNotReady ls := by
  unfold Solve
  simp only [hr, Bool.not_false, if_true]

theorem ReachedBy.has_shape_by {n bl : Int} {ls : LinearSystem} (h : ReachedBy n bl ls) :
    Shape ls ∧ ls.n = n ∧ (∀ v ∈ ls.y, Fits bl v) ∧ (ls.ready = true → ls.n ≤ ls.pos) := by
  induction h with
  | start =>
    exact ⟨Shape.empty n, rfl, fun _ hv => absurd hv (List.not_mem_nil _),
      fun hr => absurd hr (by simp [empty])⟩
  | add ls ls1 line y b _ hl hy ha ih =>
    obtain ⟨b1, ls2, hadd, hs, hn, hrd, -, hpos, -, hym⟩ :=
      Add_ok ih.1 line y (by rw [ih.2.1]; exact hl)
    rw [hadd] at ha
    injection ha with hb hls
    subst hls
    refine ⟨hs, hn.trans ih.2.1, ?_, ?_⟩
    · intro v hv
      rcases hym v hv with hv | hv
      · exact ih.2.2.1 v hv
      · exact hv ▸ hy
    · intro hr
      have := ih.2.2.2 (hrd ▸ hr)
      omega
  | backtrack ls ls1 _ hb ih =>
    by_cases hlt : ls.pos < ls.n
    · rw [Backtrack_early hlt] at hb
      cases hb
    · obtain ⟨ls2, hbt, hs, -, hn, hp, hyy, -⟩ := Backtrack_ok ih.1 hlt
      rw [hbt] at hb
      injection hb with _ hls
      subst hls
      refine ⟨hs, hn.trans ih.2.1, by rw [hyy]; exact ih.2.2.1, fun _ => by omega⟩

end LinearSystem
end Ezhik

namespace Ezhik
namespace bitSet

theorem bit_Set {bs bs1 : bitSet} {i : Int} {val : Bool} (h0 : 0 ≤ i)
    (h : bs.Set i val = .returns () bs1) (j : Nat) :
    bs1.bit j = if j = i.toNat then val else bs.bit j := by
  unfold Set at h
  cases hg : getAt bs.a (i / 64) with
  | none => rw [hg] at h; cases h
  | some w =>
    rw [hg] at h
    simp only at h
    injection h with _ h1
    subst h1
    unfold getAt at hg
    rw [if_neg (by omega)] at hg
    have hlt : (i / 64).toNat < bs.a.length := by
      by_contra hc
      rw [List.getElem?_eq_none (by omega)] at hg
      cases hg
    have hr : j % 64 < 64 := Nat.mod_lt _ (by decide)
    unfold bit
    simp only [List.getD_eq_getElem?_getD, List.getElem?_set]
    by_cases hq : (i / 64).toNat = j / 64
    · rw [if_pos hq, if_pos hlt, ← hq, hg]
      simp only [Option.getD_some]
      by_cases hji : j = i.toNat
      · have hs : (i % 64).toNat = j % 64 := by omega
        rw [if_pos hji, hs]
        cases val with
        | true =>
          simp only [if_true, Nat.testBit_or, Nat.one_shiftLeft, Nat.testBit_two_pow_self,
            Bool.or_true]
        | false =>
          simp only [Bool.false_eq_true, if_false, Nat.testBit_and, Nat.testBit_xor,
            Nat.one_shiftLeft, Nat.testBit_two_pow_self, allOnes,
            Nat.testBit_two_pow_sub_one, hr, decide_True, Bool.xor_self, Bool.and_false]
      · have hs : (i % 64).toNat ≠ j % 64 := by omega
        rw [if_neg hji]
        cases val with
        | true =>
          simp only [if_true, Nat.testBit_or, Nat.one_shiftLeft, Nat.testBit_two_pow, hs,
            decide_False, Bool.or_false]
        | false =>
          simp only [Bool.false_eq_true, if_false, Nat.testBit_and, Nat.testBit_xor,
            Nat.one_shiftLeft, Nat.testBit_two_pow, hs, decide_False, allOnes,
            Nat.testBit_two_pow_sub_one, hr, decide_True, Bool.xor_false, Bool.and_true]
    · rw [if_neg hq, if_neg (by omega)]

/-- No bit is stored at an index from `n` on. -/
theorem Built.facts {n : Int} {v : bitSet} (h : Built n v) :
    Fits n v ∧ ∀ j : Nat, n ≤ j → v.bit j = false := by
  induction h with
  | new v h =>
    unfold NewBitSet at h
    split at h
    · cases h
    · split at h
      · cases h
      · injection h with h
        subst h
        refine ⟨⟨⟨?_, ?_, ?_⟩, rfl⟩, ?_⟩
        · show n + 63 ≤ maxInt
          omega
        · show ((List.replicate ((n + 63).tdiv 64).toNat 0).length : Int) = _
          rw [List.length_replicate]
          exact Int.toNat_of_nonneg (by omega)
        · intro w hw
          rw [List.eq_of_mem_replicate hw]
          exact Nat.two_pow_pos 64
        · intro j _
          unfold bit
          simp only [List.getD_eq_getElem?_getD, List.getElem?_replicate]
          split <;> simp
  | set v w i val _ h0 hi h ih =>
    obtain ⟨w1, hs, hinv, hn⟩ := Set_ok ih.1.1 h0
      (by have := ih.1.2; unfold Len at this; omega) val
    rw [hs] at h
    injection h with _ hw
    subst hw
    refine ⟨⟨hinv, by have := ih.1.2; unfold Len at *; omega⟩, ?_⟩
    intro j hj
    rw [bit_Set h0 hs j, if_neg (by omega)]
    exact ih.2 j hj

theorem XorWithLoop_self (n : Int) :
    ∀ (k : Nat) (i : Int) (bs : bitSet), Fits n bs → 0 ≤ i → (k = 0 ∨ i + k ≤ n) →
      ∃ bs1, XorWithLoop id k i bs = .returns () bs1 ∧ Fits n bs1 ∧
        ∀ j : Nat, bs1.bit j = if i ≤ (j : Int) ∧ (j : Int) < i + k then false else bs.bit j := by
  intro k
  induction k with
  | zero =>
    intro i bs hbs _ _
    refine ⟨bs, rfl, hbs, fun j => ?_⟩
    rw [if_neg (by omega)]
  | succ k ih =>
    intro i bs hbs h0 hk
    have hin : i < bs.n := by
      have := hbs.2; unfold Len at this; omega
    obtain ⟨p, hp⟩ := Has_ok hbs.1 h0 hin
    obtain ⟨bs1, hs, hinv, hn⟩ := Set_ok hbs.1 h0 hin (p != p)
    have hf1 : Fits n bs1 := ⟨hinv, by have := hbs.2; unfold Len at *; omega⟩
    obtain ⟨bs2, h2, hf2, hbit⟩ := ih (i + 1) bs1 hf1 (by omega) (by
      have := hbs.2; unfold Len at this; omega)
    refine ⟨bs2, by simp only [XorWithLoop, id, hp, hs, h2], hf2, fun j => ?_⟩
    rw [hbit j, bit_Set h0 hs j]
    have hpp : (p != p) = false := by cases p <;> rfl
    rw [hpp]
    split_ifs <;> first | rfl | (exfalso; omega)

theorem words_zero_of_bits {v : bitSet} (hinv : v.Inv) (h : ∀ j : Nat, v.bit j = false) :
    ∀ w ∈ v.a, w = 0 := by
  intro w hw
  obtain ⟨q, hq⟩ := List.mem_iff_getElem?.mp hw
  apply Nat.eq_of_testBit_eq
  intro r
  rw [Nat.zero_testBit]
  by_cases hr : r < 64
  · have := h (64 * q + r)
    unfold bit at this
    rw [List.getD_eq_getElem?_getD] at this
    have e1 : (64 * q + r) / 64 = q := by omega
    have e2 : (64 * q + r) % 64 = r := by omega
    rw [e1, e2, hq] at this
    exact this
  · have hlt := hinv.2.2 w hw
    apply Nat.testBit_lt_two_pow
    exact lt_of_lt_of_le hlt (Nat.pow_le_pow_right (by decide) (by omega))

end bitSet
end Ezhik

namespace Ezhik
namespace bitSet

theorem bitLen_spec : ∀ (f w r : Nat), w < 2 ^ f → (r < bitLen f w ↔ w >>> r ≠ 0) := by
  intro f
  induction f with
  | zero =>
    intro w r hw
    have hw0 : w = 0 := by simpa using hw
    subst hw0
    simp [bitLen]
  | succ f ih =>
    intro w r hw
    by_cases hw0 : w = 0
    · subst hw0
      simp [bitLen]
    · simp only [bitLen, if_neg hw0]
      cases r with
      | zero => simp [hw0]
      | succ r =>
        have h2 : w / 2 < 2 ^ f := by
          rw [Nat.div_lt_iff_lt_mul (by decide)]
          rw [Nat.pow_succ] at hw
          exact hw
        have e : w >>> (r + 1) = (w / 2) >>> r := by
          rw [Nat.shiftRight_eq_div_pow, Nat.shiftRight_eq_div_pow, Nat.div_div_eq_div_mul,
            Nat.pow_succ, Nat.mul_comm]
        rw [e, ← ih (w / 2) r h2]
        omega

theorem shiftRight_ne_zero_iff (w r : Nat) :
    w >>> r ≠ 0 ↔ ∃ t, w.testBit (r + t) = true := by
  constructor
  · intro h
    by_contra hc
    apply h
    apply Nat.eq_of_testBit_eq
    intro t
    rw [Nat.testBit_shiftRight, Nat.zero_testBit]
    by_contra hx
    exact hc ⟨t, by simpa using hx⟩
  · rintro ⟨t, ht⟩ h0
    have := Nat.testBit_shiftRight (i := r) (j := t) w
    rw [h0, Nat.zero_testBit] at this
    rw [ht] at this
    cases this

theorem word_lt {v : bitSet} (hinv : v.Inv) (q : Nat) : v.a.getD q 0 < 2 ^ 64 := by
  rw [List.getD_eq_getElem?_getD]
  cases hq : v.a[q]? with
  | none => exact Nat.two_pow_pos 64
  | some w => exact hinv.2.2 w (List.mem_iff_getElem?.mpr ⟨q, hq⟩)

theorem hasAt_iff {v : bitSet} (hinv : v.Inv) (i : Nat) :
    v.hasAt i = true ↔ ∃ j, i ≤ j ∧ j / 64 = i / 64 ∧ v.bit j = true := by
  unfold hasAt bit
  rw [bne_iff_ne, shiftRight_ne_zero_iff]
  have hlt := word_lt hinv (i / 64)
  constructor
  · rintro ⟨t, ht⟩
    have h64 : i % 64 + t < 64 := by
      by_contra hc
      rw [Nat.testBit_lt_two_pow (lt_of_lt_of_le hlt
        (Nat.pow_le_pow_right (by decide) (by omega)))] at ht
      cases ht
    refine ⟨i + t, by omega, by omega, ?_⟩
    have e1 : (i + t) / 64 = i / 64 := by omega
    have e2 : (i + t) % 64 = i % 64 + t := by omega
    rw [e1, e2]
    exact ht
  · rintro ⟨j, hij, hq, hb⟩
    refine ⟨j - i, ?_⟩
    have e2 : i % 64 + (j - i) = j % 64 := by omega
    rw [e2, ← hq]
    exact hb

theorem hasAt_congr {u v : bitSet} (hu : u.Inv) (hv : v.Inv) (i : Nat)
    (h : ∀ j, i ≤ j → u.bit j = v.bit j) : u.hasAt i = v.hasAt i := by
  apply Bool.eq_iff_iff.mpr
  rw [hasAt_iff hu, hasAt_iff hv]
  constructor
  · rintro ⟨j, h1, h2, h3⟩; exact ⟨j, h1, h2, by rw [← h j h1]; exact h3⟩
  · rintro ⟨j, h1, h2, h3⟩; exact ⟨j, h1, h2, by rw [h j h1]; exact h3⟩

theorem Has_eq_hasAt {v : bitSet} (h : v.Inv) {i : Int} (h0 : 0 ≤ i) (hi : i < v.n) :
    v.Has i = .ok (v.hasAt i.toNat) := by
  obtain ⟨w, hw, -, hget⟩ := getAt_of_lt v.a (i / 64) (by omega) (h.index_lt h0 hi)
  have e1 : (i / 64).toNat = i.toNat / 64 := by omega
  have e2 : (i % 64).toNat = i.toNat % 64 := by omega
  simp only [Has, hw, hasAt, List.getD_eq_getElem?_getD, ← e1, hget, Option.getD_some, e2]

theorem XorWithLoop_other (n : Int) (b : bitSet) (hb : Fits n b) :
    ∀ (k : Nat) (i : Int) (bs : bitSet), Fits n bs → 0 ≤ i → (k = 0 ∨ i + k ≤ n) →
      ∃ bs1, XorWithLoop (fun _ => b) k i bs = .returns () bs1 ∧ Fits n bs1 ∧
        ∀ j : Nat, bs1.bit j =
          if i ≤ (j : Int) ∧ (j : Int) < i + k then (bs.hasAt j != b.hasAt j)
          else bs.bit j := by
  intro k
  induction k with
  | zero =>
    intro i bs hbs _ _
    refine ⟨bs, rfl, hbs, fun j => ?_⟩
    rw [if_neg (by omega)]
  | succ k ih =>
    intro i bs hbs h0 hk
    have hbn := hbs.2
    have hbn2 := hb.2
    unfold Len at hbn hbn2
    have hin : i < bs.n := by omega
    have hp := Has_eq_hasAt hbs.1 h0 hin
    have hq := Has_eq_hasAt hb.1 h0 (by omega)
    obtain ⟨bs1, hs, hinv, hn⟩ := Set_ok hbs.1 h0 hin (bs.hasAt i.toNat != b.hasAt i.toNat)
    have hf1 : Fits n bs1 := ⟨hinv, by unfold Len; omega⟩
    obtain ⟨bs2, h2, hf2, hbit⟩ := ih (i + 1) bs1 hf1 (by omega) (by omega)
    refine ⟨bs2, by simp only [XorWithLoop, hp, hq, hs, h2], hf2, fun j => ?_⟩
    rw [hbit j, bit_Set h0 hs j]
    by_cases hj : i + 1 ≤ (j : Int) ∧ (j : Int) < i + 1 + k
    · rw [if_pos hj, if_pos (by push_cast; omega)]
      congr 1
      apply hasAt_congr hf1.1 hbs.1
      intro j1 hj1
      rw [bit_Set h0 hs j1, if_neg (by omega)]
    · rw [if_neg hj]
      by_cases hji : j = i.toNat
      · rw [if_pos hji, if_pos (by push_cast; omega), hji]
      · rw [if_neg hji, if_neg (by push_cast; omega)]

end bitSet
end Ezhik

namespace Ezhik
namespace bitSet

theorem length_xorWordsFrom (n : Nat) :
    ∀ (as bs : List Nat) (q : Nat), (xorWordsFrom n q as bs).length = as.length := by
  intro as
  induction as with
  | nil => intro bs q; rfl
  | cons wa as ih =>
    intro bs q
    cases bs with
    | nil => rfl
    | cons wb bs => simp only [xorWordsFrom, List.length_cons, ih]

theorem getD_xorWordsFrom (n : Nat) :
    ∀ (as bs : List Nat) (q t : Nat), as.length = bs.length → t < as.length →
      (xorWordsFrom n q as bs).getD t 0 =
        xorWord (min 64 (n - 64 * (q + t))) (as.getD t 0) (bs.getD t 0) := by
  intro as
  induction as with
  | nil => intro bs q t _ ht; simp at ht
  | cons wa as ih =>
    intro bs q t hl ht
    cases bs with
    | nil => simp at hl
    | cons wb bs =>
      cases t with
      | zero => simp [xorWordsFrom]
      | succ t =>
        simp only [xorWordsFrom, List.getD_cons_succ]
        rw [ih bs (q + 1) t (by simpa using hl) (by simpa using ht)]
        have e : q + 1 + t = q + (t + 1) := by omega
        rw [e]

theorem testBit_xorWord (m wa wb r : Nat) (hr : r < 64) (ha : wa < 2 ^ 64)
    (hb : wb < 2 ^ 64) :
    (xorWord m wa wb).testBit r =
      if r < m then ((wa >>> r != 0) != (wb >>> r != 0)) else wa.testBit r := by
  have ea : (wa >>> r != 0) = decide (r < bitLen 64 wa) := by
    apply Bool.eq_iff_iff.mpr
    rw [bne_iff_ne, decide_eq_true_iff, bitLen_spec 64 wa r ha]
  have eb : (wb >>> r != 0) = decide (r < bitLen 64 wb) := by
    apply Bool.eq_iff_iff.mpr
    rw [bne_iff_ne, decide_eq_true_iff, bitLen_spec 64 wb r hb]
  rw [ea, eb]
  simp only [xorWord, allOnes, Nat.testBit_or, Nat.testBit_and, Nat.testBit_xor,
    Nat.testBit_two_pow_sub_one, hr, decide_True]
  by_cases hm : r < m
  · simp [hm]
  · simp [hm]

theorem testBit_xorWord_high (m wa wb r : Nat) (hm : m ≤ 64) (hr : 64 ≤ r)
    (ha : wa < 2 ^ 64) : (xorWord m wa wb).testBit r = false := by
  have h1 : wa.testBit r = false :=
    Nat.testBit_lt_two_pow (lt_of_lt_of_le ha (Nat.pow_le_pow_right (by decide) hr))
  have h2 : ¬ r < m := by omega
  simp only [xorWord, Nat.testBit_or, Nat.testBit_and, Nat.testBit_two_pow_sub_one, h1, h2,
    decide_False, Bool.false_and, Bool.and_false, Bool.or_false]

theorem bit_xorClosed {n : Int} {a b : bitSet} (ha : Fits n a) (hb : Fits n b) (j : Nat) :
    (xorClosed a b).bit j =
      if (j : Int) < n then (a.hasAt j != b.hasAt j) else a.bit j := by
  have han := ha.2
  have hbn := hb.2
  unfold Len at han hbn
  have hlen : a.a.length = b.a.length := by
    have h1 := ha.1.2.1
    have h2 := hb.1.2.1
    rw [han] at h1
    rw [hbn] at h2
    omega
  have hr : j % 64 < 64 := Nat.mod_lt _ (by decide)
  by_cases hq : j / 64 < a.a.length
  · unfold bit xorClosed
    simp only
    rw [getD_xorWordsFrom _ _ _ _ _ hlen hq,
      testBit_xorWord _ _ _ _ hr (word_lt ha.1 _) (word_lt hb.1 _)]
    have e : (j % 64 < min 64 (a.n.toNat - 64 * (0 + j / 64))) ↔ (j : Int) < n := by
      rw [han]; omega
    by_cases hjn : (j : Int) < n
    · rw [if_pos (e.mpr hjn), if_pos hjn]; rfl
    · rw [if_neg (fun h => hjn (e.mp h)), if_neg hjn]
  · have hjn : ¬ (j : Int) < n := by
      intro hjn
      have := ha.1.index_lt (i := (j : Int)) (by omega) (by omega)
      omega
    rw [if_neg hjn]
    unfold bit xorClosed
    simp only
    rw [List.getD_eq_getElem?_getD, List.getD_eq_getElem?_getD,
      List.getElem?_eq_none (by rw [length_xorWordsFrom]; omega),
      List.getElem?_eq_none (by omega)]

theorem Fits_xorClosed {n : Int} {a b : bitSet} (ha : Fits n a) (hb : Fits n b) :
    Fits n (xorClosed a b) := by
  have han := ha.2
  have hbn := hb.2
  unfold Len at han hbn
  have hlen : a.a.length = b.a.length := by
    have h1 := ha.1.2.1
    have h2 := hb.1.2.1
    rw [han] at h1
    rw [hbn] at h2
    omega
  refine ⟨⟨ha.1.1, ?_, ?_⟩, ha.2⟩
  · show ((xorWordsFrom a.n.toNat 0 a.a b.a).length : Int) = _
    rw [length_xorWordsFrom]
    exact ha.1.2.1
  · intro w hw
    obtain ⟨q, hq⟩ := List.mem_iff_getElem?.mp hw
    have hql : q < a.a.length := by
      by_contra hc
      rw [show (xorClosed a b).a = xorWordsFrom a.n.toNat 0 a.a b.a from rfl,
        List.getElem?_eq_none (by rw [length_xorWordsFrom]; omega)] at hq
      cases hq
    have hw2 : w = xorWord (min 64 (a.n.toNat - 64 * (0 + q))) (a.a.getD q 0) (b.a.getD q 0) := by
      rw [← getD_xorWordsFrom _ _ _ _ _ hlen hql, List.getD_eq_getElem?_getD]
      rw [show (xorClosed a b).a = xorWordsFrom a.n.toNat 0 a.a b.a from rfl] at hq
      rw [hq]; rfl
    rw [hw2]
    apply Nat.lt_pow_two_of_testBit
    intro r hr
    exact testBit_xorWord_high _ _ _ _ (Nat.min_le_left _ _) hr (word_lt ha.1 _)

theorem eq_of_bits {u v : bitSet} (hu : u.Inv) (hv : v.Inv) (hn : u.n = v.n)
    (h : ∀ j, u.bit j = v.bit j) : u = v := by
  have hlen : u.a.length = v.a.length := by
    have h1 := hu.2.1
    have h2 := hv.2.1
    rw [hn] at h1
    omega
  cases u with
  | mk ua un =>
    cases v with
    | mk va vn =>
      simp only at hn hlen
      subst hn
      congr 1
      apply List.ext_getElem hlen
      intro q h1 h2
      apply Nat.eq_of_testBit_eq
      intro r
      by_cases hr : r < 64
      · have := h (64 * q + r)
        unfold bit at this
        simp only [List.getD_eq_getElem?_getD] at this
        have e1 : (64 * q + r) / 64 = q := by omega
        have e2 : (64 * q + r) % 64 = r := by omega
        rw [e1, e2, List.getElem?_eq_getElem h1, List.getElem?_eq_getElem h2] at this
        exact this
      · have l1 := hu.2.2 _ (List.getElem_mem h1)
        have l2 := hv.2.2 _ (List.getElem_mem h2)
        rw [Nat.testBit_lt_two_pow (lt_of_lt_of_le l1 (Nat.pow_le_pow_right (by decide)
            (by omega))),
          Nat.testBit_lt_two_pow (lt_of_lt_of_le l2 (Nat.pow_le_pow_right (by decide)
            (by omega)))]

/-- What `XorWith` computes: the closed form `xorClosed`. -/
theorem XorWith_eq_xorClosed {n : Int} {a b : bitSet} (ha : Fits n a) (hb : Fits n b) :
    a.XorWith b = .returns () (xorClosed a b) := by
  have han := ha.2
  have hbn := hb.2
  unfold Len at han hbn
  obtain ⟨a1, hloop, hf1, hbit⟩ := XorWithLoop_other n b hb a.n.toNat 0 a ha (le_refl _)
    (by omega)
  have hx : a.XorWith b = .returns () a1 := by
    unfold XorWith XorWithFrom
    rw [if_neg (by rw [ha.2, hb.2]; simp)]
    exact hloop
  rw [hx]
  congr 1
  have hfc := Fits_xorClosed ha hb
  apply eq_of_bits hf1.1 hfc.1
  · have h1 := hf1.2
    have h2 := hfc.2
    unfold Len at h1 h2
    omega
  · intro j
    rw [hbit j, bit_xorClosed ha hb j]
    by_cases hj : (j : Int) < n
    · rw [if_pos (by omega), if_pos hj]
    · rw [if_neg (by omega), if_neg hj]

end bitSet
end Ezhik

namespace Ezhik
namespace LinearSystem
open bitSet

theorem getAt_append_last {α : Type} (L : List α) (c : α) :
    getAt (L ++ [c]) (L.length : Int) = some c := by
  unfold getAt
  rw [if_neg (by omega)]
  simp

theorem getAt_append_left {α : Type} (L : List α) (c : α) (i : Int) (h0 : 0 ≤ i)
    (h : i.toNat < L.length) : getAt (L ++ [c]) i = some (L.get ⟨i.toNat, h⟩) := by
  unfold getAt
  rw [if_neg (by omega), List.getElem?_append_left h, List.getElem?_eq_getElem h]
  rfl

theorem set_append_last {α : Type} (L : List α) (c x : α) :
    List.set (L ++ [c]) (L.length : Int).toNat x = L ++ [x] := by
  rw [Int.toNat_ofNat, List.set_append_right _ _ (le_refl _)]
  simp

theorem EliminateSrcRangeLoop_closed (n : Int) (L ys : List bitSet) (p : Int) (rd : Bool)
    (hL : ∀ r ∈ L, Fits n r) :
    ∀ (k : Nat) (i : Int) (c : bitSet), Fits n c → 0 ≤ i →
      (k = 0 ∨ (i + k ≤ L.length ∧ i + k ≤ n)) →
      EliminateSrcRangeLoop (L.length : Int) 0 k i
          { n := n, lines := L ++ [c], y := ys, pos := p, ready := rd } =
        .returns ()
          { n := n, lines := L ++ [reduceClosed ((L.drop i.toNat).take k) c i.toNat],
            y := ys, pos := p, ready := rd } := by
  intro k
  induction k with
  | zero => intro i c _ _ _; simp [EliminateSrcRangeLoop, reduceClosed]
  | succ k ih =>
    intro i c hc hi hk
    have hcn := hc.2
    unfold Len at hcn
    have hlt : i.toNat < L.length := by omega
    have hdrop : (L.drop i.toNat).take (k + 1) =
        L.get ⟨i.toNat, hlt⟩ :: (L.drop (i + 1).toNat).take k := by
      rw [List.drop_eq_getElem_cons hlt, List.take_succ_cons]
      have e : (i + 1).toNat = i.toNat + 1 := by omega
      rw [e]
      rfl
    have hrf : Fits n (L.get ⟨i.toNat, hlt⟩) := hL _ (List.get_mem _ _ _)
    have hhas : c.Has (0 + i) = .ok (c.hasAt i.toNat) := by
      rw [zero_add]
      exact Has_eq_hasAt hc.1 hi (by omega)
    have hne : ¬ ((L.length : Int) = 0 + i) := by omega
    have hgs : getAt (L ++ [c]) (0 + i) = some (L.get ⟨i.toNat, hlt⟩) := by
      rw [zero_add]
      exact getAt_append_left L c i hi hlt
    rw [hdrop]
    cases hb : c.hasAt i.toNat with
    | false =>
      have he : Eliminate { n := n, lines := L ++ [c], y := ys, pos := p, ready := rd }
          (L.length : Int) (0 + i) =
          .returns () { n := n, lines := L ++ [c], y := ys, pos := p, ready := rd } := by
        simp only [Eliminate, getAt_append_last, hhas, hb]
      simp only [EliminateSrcRangeLoop, he, reduceClosed, hb, Bool.false_eq_true, if_false]
      have e : (i + 1).toNat = i.toNat + 1 := by omega
      rw [ih (i + 1) c hc (by omega) (by omega), e]
    | true =>
      have hx := XorWith_eq_xorClosed hc hrf
      have he : Eliminate { n := n, lines := L ++ [c], y := ys, pos := p, ready := rd }
          (L.length : Int) (0 + i) =
          .returns () (LinearSystem.mk n (L ++ [xorClosed c (L.get ⟨i.toNat, hlt⟩)]) ys
            p rd) := by
        simp only [Eliminate, getAt_append_last, hhas, hb, hgs, if_neg hne, hx,
          set_append_last]
      simp only [EliminateSrcRangeLoop, he, reduceClosed, hb, if_true]
      have e : (i + 1).toNat = i.toNat + 1 := by omega
      rw [ih (i + 1) _ (Fits_xorClosed hc hrf) (by omega) (by omega), e]

/-- The closed form of the reduction computes what `Add` computes. -/
theorem Add_eq_AddClosed {ls : LinearSystem} (h : Shape ls) (line y : bitSet)
    (hl : Fits ls.n line) : ls.Add line y = ls.AddClosed line y := by
  by_cases hge : ls.pos ≥ ls.n
  · unfold Add AddClosed
    rw [if_pos hge, if_pos hge]
  · have hp0 := h.pos_nonneg
    have hpl := h.pos_le_len
    have hloop := EliminateSrcRangeLoop_closed ls.n ls.lines (ls.y ++ [y]) ls.pos ls.ready
      h.rows ls.pos.toNat 0 line hl (le_refl _) (by omega)
    have hidx : ((ls.lines ++ [line]).length : Int) - 1 = (ls.lines.length : Int) := by
      simp
    unfold Add AddClosed
    rw [if_neg hge, if_neg hge]
    simp only [EliminateSrcRange, hidx, hloop, Int.toNat_zero, List.drop_zero]

end LinearSystem
end Ezhik

namespace Ezhik

theorem getAt_some_lt {α : Type} {s : List α} {i : Int} {x : α} (h : getAt s i = some x) :
    0 ≤ i ∧ i < s.length := by
  unfold getAt at h
  split at h
  · cases h
  · have := (List.getElem?_eq_some.mp h).1
    omega

namespace LinearSystem
open bitSet

theorem Eliminate_state (ls : LinearSystem) (dst src : Int) :
    RowsOnly ls (ls.Eliminate dst src).state := by
  unfold Eliminate
  split
  · exact RowsOnly.refl ls
  · split
    · exact RowsOnly.refl ls
    · exact RowsOnly.refl ls
    · split
      · exact RowsOnly.refl ls
      · split
        · exact ⟨rfl, rfl, rfl, rfl, by simp [Outcome.state]⟩
        · exact ⟨rfl, rfl, rfl, rfl, by simp [Outcome.state]⟩

theorem EliminateSrcRangeLoop_state (dst src : Int) :
    ∀ (k : Nat) (i : Int) (ls : LinearSystem),
      RowsOnly ls (EliminateSrcRangeLoop dst src k i ls).state := by
  intro k
  induction k with
  | zero => intro i ls; exact RowsOnly.refl ls
  | succ k ih =>
    intro i ls
    have he := Eliminate_state ls dst (src + i)
    unfold EliminateSrcRangeLoop
    cases hx : ls.Eliminate dst (src + i) with
    | panics e ls1 => rw [hx] at he; exact he
    | returns u ls1 => rw [hx] at he; exact he.trans (ih (i + 1) ls1)

theorem EliminateDstRangeLoop_state (dst src : Int) :
    ∀ (k : Nat) (i : Int) (ls : LinearSystem),
      RowsOnly ls (EliminateDstRangeLoop dst src k i ls).state := by
  intro k
  induction k with
  | zero => intro i ls; exact RowsOnly.refl ls
  | succ k ih =>
    intro i ls
    have he := Eliminate_state ls (dst + i) src
    unfold EliminateDstRangeLoop
    cases hx : ls.Eliminate (dst + i) src with
    | panics e ls1 => rw [hx] at he; exact he
    | returns u ls1 => rw [hx] at he; exact he.trans (ih (i + 1) ls1)

/-- What `Promote` may do to the counters: `n` and `ready` stay, `lines` and `y` keep
their lengths, and `pos` stays or advances by one within `lines`. -/
theorem Promote_state (ls : LinearSystem) (index : Int) :
    (ls.Promote index).state.n = ls.n ∧ (ls.Promote index).state.ready = ls.ready ∧
      (ls.Promote index).state.lines.length = ls.lines.length ∧
      (ls.Promote index).state.y.length = ls.y.length ∧
      ((ls.Promote index).state.pos = ls.pos ∨
        ((ls.Promote index).state.pos = ls.pos + 1 ∧ ls.pos < ls.lines.length)) := by
  unfold Promote
  cases hgi : getAt ls.lines index with
  | none => simp [Outcome.state]
  | some li =>
    cases hgp : getAt ls.lines ls.pos with
    | none => simp [Outcome.state]
    | some lp =>
      have hpl := (getAt_some_lt hgp).2
      simp only
      cases hyi : getAt ls.y index with
      | none => simp [Outcome.state]
      | some yi =>
        cases hyp : getAt ls.y ls.pos with
        | none => simp [Outcome.state]
        | some yp =>
          simp only
          cases hgr : getAt (List.set (List.set ls.lines ls.pos.toNat li) index.toNat lp)
              ls.pos with
          | none => simp [Outcome.state]
          | some r =>
            simp only
            cases hset : r.Set ls.pos true with
            | panics e r1 => simp [Outcome.state]
            | returns u r1 =>
              simp only
              obtain ⟨h1, h2, h3, h4, h5⟩ := EliminateDstRangeLoop_state
                (ls.pos + 1) (ls.pos + 1 - 1)
                (((List.set (List.set (List.set ls.lines ls.pos.toNat li) index.toNat lp)
                  ls.pos.toNat r1).length : Int) - (ls.pos + 1)).toNat 0
                (LinearSystem.mk ls.n
                  (List.set (List.set (List.set ls.lines ls.pos.toNat li) index.toNat lp)
                    ls.pos.toNat r1)
                  (List.set (List.set ls.y ls.pos.toNat yi) index.toNat yp) (ls.pos + 1)
                  ls.ready)
              unfold EliminateDstRange
              refine ⟨h1, h4, ?_, ?_, Or.inr ⟨h2, hpl⟩⟩
              · rw [h5]; simp
              · rw [h3]; simp

end LinearSystem
end Ezhik

namespace Ezhik
namespace LinearSystem
open bitSet

theorem Counts.of_rowsOnly {a b : LinearSystem} (h : RowsOnly a b) (hc : Counts a) :
    Counts b := by
  obtain ⟨h1, h2, h3, h4, h5⟩ := h
  obtain ⟨c1, c2, c3, c4, c5⟩ := hc
  refine ⟨by omega, by omega, by rw [h5, h3]; exact c3, by omega, fun hr => ?_⟩
  have := c5 (h4 ▸ hr)
  omega

theorem Counts.of_promote {ls : LinearSystem} (hc : Counts ls) (hlt : ls.pos < ls.n)
    (index : Int) :
    Counts (ls.Promote index).state ∧ (ls.Promote index).state.n = ls.n ∧
      (ls.Promote index).state.ready = ls.ready ∧ ls.pos ≤ (ls.Promote index).state.pos := by
  obtain ⟨h1, h2, h3, h4, h5⟩ := Promote_state ls index
  obtain ⟨c1, c2, c3, c4, c5⟩ := hc
  refine ⟨⟨by omega, by omega, by omega, by omega, fun hr => ?_⟩, h1, h2, by omega⟩
  have := c5 (h2 ▸ hr)
  omega

theorem AddSweep_state :
    ∀ (fuel : Nat) (ls : LinearSystem), Counts ls →
      Counts (AddSweep fuel ls).state ∧ (AddSweep fuel ls).state.n = ls.n ∧
        (AddSweep fuel ls).state.ready = ls.ready ∧ ls.pos ≤ (AddSweep fuel ls).state.pos := by
  intro fuel
  induction fuel with
  | zero =>
    intro ls hc
    unfold AddSweep
    split <;> exact ⟨hc, rfl, rfl, le_refl _⟩
  | succ f ih =>
    intro ls hc
    unfold AddSweep
    by_cases hlt : ls.pos < ls.n
    · rw [if_pos hlt]
      try simp only
      cases hfo : ls.FindOne ls.pos ((ls.lines.length : Int) - ls.pos) ls.pos with
      | error e => exact ⟨hc, rfl, rfl, le_refl _⟩
      | ok i =>
        try simp only
        by_cases him : i = -1
        · rw [if_pos him]; exact ⟨hc, rfl, rfl, le_refl _⟩
        · rw [if_neg him]
          have hp := hc.of_promote hlt i
          cases hpr : ls.Promote i with
          | panics e ls1 => rw [hpr] at hp; exact hp
          | returns u ls1 =>
            rw [hpr] at hp
            simp only [Outcome.state] at hp
            obtain ⟨q1, q2, q3, q4⟩ := ih ls1 hp.1
            exact ⟨q1, q2.trans hp.2.1, q3.trans hp.2.2.1, le_trans hp.2.2.2 q4⟩
    · rw [if_neg hlt]; exact ⟨hc, rfl, rfl, le_refl _⟩

theorem Add_state (ls : LinearSystem) (hc : Counts ls) (line y : bitSet) :
    Counts (ls.Add line y).state ∧ (ls.Add line y).state.n = ls.n ∧
      (ls.Add line y).state.ready = ls.ready ∧ ls.pos ≤ (ls.Add line y).state.pos := by
  unfold Add
  by_cases hge : ls.pos ≥ ls.n
  · rw [if_pos hge]; exact ⟨hc, rfl, rfl, le_refl _⟩
  · rw [if_neg hge]
    try simp only
    have hc1 : Counts (LinearSystem.mk ls.n (ls.lines ++ [line]) (ls.y ++ [y]) ls.pos
        ls.ready) := by
      obtain ⟨c1, c2, c3, c4, c5⟩ := hc
      refine ⟨c1, ?_, ?_, c4, c5⟩
      · simp only [List.length_append, List.length_singleton]; push_cast; omega
      · simp only [List.length_append, List.length_singleton]; omega
    have hf := EliminateSrcRangeLoop_state (((ls.lines ++ [line]).length : Int) - 1) 0
      ls.pos.toNat 0 (LinearSystem.mk ls.n (ls.lines ++ [line]) (ls.y ++ [y]) ls.pos ls.ready)
    unfold EliminateSrcRange
    try simp only
    cases he : EliminateSrcRangeLoop (((ls.lines ++ [line]).length : Int) - 1) 0
        ls.pos.toNat 0
        (LinearSystem.mk ls.n (ls.lines ++ [line]) (ls.y ++ [y]) ls.pos ls.ready) with
    | panics e ls2 =>
      rw [he] at hf
      simp only [Outcome.state] at hf
      exact ⟨hc1.of_rowsOnly hf, hf.1, hf.2.2.2.1, le_of_eq hf.2.1.symm⟩
    | returns u ls2 =>
      rw [he] at hf
      simp only [Outcome.state] at hf
      have hc2 : Counts ls2 := hc1.of_rowsOnly hf
      have base : Counts ls2 ∧ ls2.n = ls.n ∧ ls2.ready = ls.ready ∧ ls.pos ≤ ls2.pos :=
        ⟨hc2, hf.1, hf.2.2.2.1, by rw [hf.2.1]⟩
      try simp only
      cases hgr : getAt ls2.lines (((ls.lines ++ [line]).length : Int) - 1) with
      | none => exact base
      | some r =>
        try simp only
        cases hb : r.Has ls2.pos with
        | error e => exact base
        | ok b =>
          cases b with
          | false => exact base
          | true =>
            try simp only
            have hlt2 : ls2.pos < ls2.n := by rw [hf.1, hf.2.1]; exact lt_of_not_ge hge
            have hp := hc2.of_promote hlt2 (((ls.lines ++ [line]).length : Int) - 1)
            cases hpr : ls2.Promote (((ls.lines ++ [line]).length : Int) - 1) with
            | panics e ls3 =>
              rw [hpr] at hp
              simp only [Outcome.state] at hp ⊢
              exact ⟨hp.1, hp.2.1.trans base.2.1, hp.2.2.1.trans base.2.2.1,
                le_trans base.2.2.2 hp.2.2.2⟩
            | returns u3 ls3 =>
              rw [hpr] at hp
              simp only [Outcome.state] at hp
              try simp only
              have hs := AddSweep_state (ls3.n - ls3.pos).toNat ls3 hp.1
              cases hsw : AddSweep (ls3.n - ls3.pos).toNat ls3 with
              | panics e ls4 =>
                rw [hsw] at hs
                simp only [Outcome.state] at hs ⊢
                exact ⟨hs.1, hs.2.1.trans (hp.2.1.trans base.2.1),
                  hs.2.2.1.trans (hp.2.2.1.trans base.2.2.1),
                  le_trans base.2.2.2 (le_trans hp.2.2.2 hs.2.2.2)⟩
              | returns u4 ls4 =>
                rw [hsw] at hs
                simp only [Outcome.state] at hs ⊢
                exact ⟨hs.1, hs.2.1.trans (hp.2.1.trans base.2.1),
                  hs.2.2.1.trans (hp.2.2.1.trans base.2.2.1),
                  le_trans base.2.2.2 (le_trans hp.2.2.2 hs.2.2.2)⟩

theorem BacktrackLoop_state :
    ∀ (k : Nat) (i : Int) (ls : LinearSystem), RowsOnly ls (BacktrackLoop k i ls).state := by
  intro k
  induction k with
  | zero => intro i ls; exact RowsOnly.refl ls
  | succ k ih =>
    intro i ls
    have he := EliminateDstRangeLoop_state 0 i (i - 1).toNat 0 ls
    unfold BacktrackLoop EliminateDstRange
    cases hx : EliminateDstRangeLoop 0 i (i - 1).toNat 0 ls with
    | panics e ls1 => rw [hx] at he; exact he
    | returns u ls1 => rw [hx] at he; exact he.trans (ih (i - 1) ls1)

theorem Backtrack_returns {ls ls1 : LinearSystem} (hb : ls.Backtrack = .returns () ls1) :
    ¬ ls.pos < ls.n ∧ ls1.ready = true ∧ ls1.n = ls.n ∧ ls1.pos = ls.pos ∧
      ls1.lines.length = ls.lines.length ∧ ls1.y = ls.y := by
  unfold Backtrack at hb
  by_cases hlt : ls.pos < ls.n
  · rw [if_pos hlt] at hb; cases hb
  · rw [if_neg hlt] at hb
    have hf := BacktrackLoop_state (ls.n - 1).toNat (ls.n - 1) ls
    cases hx : BacktrackLoop (ls.n - 1).toNat (ls.n - 1) ls with
    | panics e ls2 => rw [hx] at hb; cases hb
    | returns u ls2 =>
      rw [hx] at hb hf
      simp only at hb
      injection hb with _ hls
      subst hls
      exact ⟨hlt, rfl, hf.1, hf.2.1, hf.2.2.2.2, hf.2.2.1⟩

theorem Solve_returns_state {ls ls1 : LinearSystem} {x : List bitSet}
    (h : ls.Solve = .returns x ls1) : ls1 = ls := by
  unfold Solve at h
  split at h
  · cases h
  · split at h
    · cases h
    · split at h
      · cases h
      · split at h
        · cases h
        · injection h with _ hls
          exact hls.symm

theorem ReachedAll.counts {n : Int} {ls : LinearSystem} (h : ReachedAll n ls) :
    Counts ls ∧ ls.n = n := by
  induction h with
  | start => exact ⟨⟨le_refl _, le_refl _, rfl, Or.inr rfl, fun hr => by cases hr⟩, rfl⟩
  | add ls line y _ ih =>
    obtain ⟨h1, h2, -, -⟩ := Add_state ls ih.1 line y
    exact ⟨h1, h2.trans ih.2⟩
  | backtrack ls ls1 _ hb ih =>
    obtain ⟨hge, hr, hn, hp, hl, hy⟩ := Backtrack_returns hb
    obtain ⟨c1, c2, c3, c4, c5⟩ := ih.1
    refine ⟨⟨by omega, by omega, by rw [hl, hy]; exact c3, by omega, fun _ => by omega⟩,
      hn.trans ih.2⟩
  | solve ls ls1 x _ hs ih =>
    rw [Solve_returns_state hs]
    exact ih

end LinearSystem
end Ezhik

namespace Ezhik

theorem set_same {α : Type} {l : List α} {i : Nat} {x : α} (h : l[i]? = some x) :
    l.set i x = l := by
  apply List.ext_getElem?
  intro t
  rw [List.getElem?_set]
  by_cases hit : i = t
  · subst hit
    rw [if_pos rfl, if_pos (List.getElem?_eq_some.mp h).1, h]
  · rw [if_neg hit]

namespace bitSet

theorem hasAt_true_of_bit {v : bitSet} (hinv : v.Inv) {i j : Nat} (hij : i ≤ j)
    (hw : j / 64 = i / 64) (hb : v.bit j = true) : v.hasAt i = true :=
  (hasAt_iff hinv i).mpr ⟨j, hij, hw, hb⟩

theorem zeroBelow_step {n : Int} {d s : bitSet} (hd : Fits n d) (hs : Fits n s) (src : Nat)
    (hsn : (src : Int) < n) (hbit : s.bit src = true) (hzs : s.ZeroBelow src)
    (hzd : d.ZeroBelow src) :
    (if d.hasAt src then xorClosed d s else d).ZeroBelow (src + 1) := by
  intro j hj
  by_cases hb : d.hasAt src = true
  · rw [if_pos hb, bit_xorClosed hd hs j, if_pos (by omega)]
    obtain ⟨j1, h1, h2, h3⟩ := (hasAt_iff hd.1 src).mp hb
    by_cases hw : j / 64 = src / 64
    · have e1 : d.hasAt j = true := hasAt_true_of_bit hd.1 (by omega) (by omega) h3
      have e2 : s.hasAt j = true := hasAt_true_of_bit hs.1 (by omega) hw.symm hbit
      rw [e1, e2]
      rfl
    · have e1 : d.hasAt j = false := by
        cases hx : d.hasAt j with
        | false => rfl
        | true =>
          obtain ⟨j2, g1, g2, g3⟩ := (hasAt_iff hd.1 j).mp hx
          rw [hzd j2 (by omega)] at g3
          cases g3
      have e2 : s.hasAt j = false := by
        cases hx : s.hasAt j with
        | false => rfl
        | true =>
          obtain ⟨j2, g1, g2, g3⟩ := (hasAt_iff hs.1 j).mp hx
          rw [hzs j2 (by omega)] at g3
          cases g3
      rw [e1, e2]
      rfl
  · rw [if_neg hb]
    by_cases hjs : j = src
    · subst hjs
      cases hx : d.bit j with
      | false => rfl
      | true => exact absurd (hasAt_true_of_bit hd.1 (le_refl _) rfl hx) hb
    · exact hzd j (by omega)

theorem Fits_step {n : Int} {d s : bitSet} (hd : Fits n d) (hs : Fits n s) (src : Nat) :
    Fits n (if d.hasAt src then xorClosed d s else d) := by
  split
  · exact Fits_xorClosed hd hs
  · exact hd

end bitSet

namespace LinearSystem
open bitSet

theorem reduceClosed_zeroBelow (n : Int) :
    ∀ (rows : List bitSet) (c : bitSet) (i : Nat), Fits n c →
      (i : Int) + rows.length ≤ n →
      (∀ (t : Nat) (r : bitSet), rows[t]? = some r →
        Fits n r ∧ r.bit (i + t) = true ∧ r.ZeroBelow (i + t)) →
      c.ZeroBelow i →
      Fits n (reduceClosed rows c i) ∧ (reduceClosed rows c i).ZeroBelow (i + rows.length) := by
  intro rows
  induction rows with
  | nil => intro c i hc _ _ hz; exact ⟨hc, hz⟩
  | cons r rest ih =>
    intro c i hc hlen hrows hz
    simp only [List.length_cons] at hlen ⊢
    push_cast at hlen
    obtain ⟨hr, hrb, hrz⟩ := hrows 0 r List.getElem?_cons_zero
    have hstep := zeroBelow_step hc hr i (by omega) hrb hrz hz
    have hfit := Fits_step hc hr i
    have := ih _ (i + 1) hfit (by push_cast; omega) (fun t r1 ht => by
      have := hrows (t + 1) r1 (by rw [List.getElem?_cons_succ]; exact ht)
      rw [show i + 1 + t = i + (t + 1) by omega]
      exact this) hstep
    rw [show i + (rest.length + 1) = i + 1 + rest.length by omega]
    exact this

theorem Eliminate_row {ls : LinearSystem} (h : Shape ls) (dst src : Int) (hd0 : 0 ≤ dst)
    (hs0 : 0 ≤ src) (hsn : src < ls.n) (hne : dst ≠ src) (d s : bitSet)
    (hgd : ls.lines[dst.toNat]? = some d) (hgs : ls.lines[src.toNat]? = some s) :
    ls.Eliminate dst src = .returns ()
      (LinearSystem.mk ls.n
        (ls.lines.set dst.toNat (if d.hasAt src.toNat then xorClosed d s else d))
        ls.y ls.pos ls.ready) := by
  have hdf := h.rows d (List.getElem?_mem hgd)
  have hsf := h.rows s (List.getElem?_mem hgs)
  have hdn := hdf.2
  unfold Len at hdn
  have g1 : getAt ls.lines dst = some d := by
    unfold getAt; rw [if_neg (by omega)]; exact hgd
  have g2 : getAt ls.lines src = some s := by
    unfold getAt; rw [if_neg (by omega)]; exact hgs
  have hhas := Has_eq_hasAt hdf.1 hs0 (by omega)
  cases hb : d.hasAt src.toNat with
  | false =>
    simp only [Eliminate, g1, hhas, hb, Bool.false_eq_true, if_false, set_same hgd]
  | true =>
    simp only [Eliminate, g1, hhas, hb, g2, if_neg hne, XorWith_eq_xorClosed hdf hsf,
      if_true]

theorem EliminateDstRangeLoop_rows (base src : Int) :
    ∀ (k : Nat) (i : Int) (ls : LinearSystem), Shape ls → 0 ≤ src → src < ls.n →
      src < base + i → (k = 0 ∨ base + i + k ≤ ls.lines.length) →
      (∀ s, ls.lines[src.toNat]? = some s →
        s.bit src.toNat = true ∧ s.ZeroBelow src.toNat) →
      (∀ (t : Nat) (r : bitSet), base + i ≤ t → (t : Int) < base + i + k →
        ls.lines[t]? = some r → r.ZeroBelow src.toNat) →
      ∃ ls1, EliminateDstRangeLoop base src k i ls = .returns () ls1 ∧ Shape ls1 ∧
        RowsOnly ls ls1 ∧
        (∀ t : Nat, ¬ (base + i ≤ t ∧ (t : Int) < base + i + k) →
          ls1.lines[t]? = ls.lines[t]?) ∧
        (∀ (t : Nat) (r : bitSet), base + i ≤ t → (t : Int) < base + i + k →
          ls1.lines[t]? = some r → r.ZeroBelow (src.toNat + 1)) := by
  intro k
  induction k with
  | zero =>
    intro i ls h _ _ _ _ _ _
    exact ⟨ls, rfl, h, RowsOnly.refl ls, fun _ _ => rfl, fun t r h1 h2 => by omega⟩
  | succ k ih =>
    intro i ls h hs0 hsn hlt hk hpiv hrng
    have hdl : (base + i).toNat < ls.lines.length := by omega
    have hsl : src.toNat < ls.lines.length := by omega
    obtain ⟨d, hgd⟩ : ∃ d, ls.lines[(base + i).toNat]? = some d :=
      ⟨_, List.getElem?_eq_getElem hdl⟩
    obtain ⟨s, hgs⟩ : ∃ s, ls.lines[src.toNat]? = some s :=
      ⟨_, List.getElem?_eq_getElem hsl⟩
    have hdf := h.rows d (List.getElem?_mem hgd)
    have hsf := h.rows s (List.getElem?_mem hgs)
    have he := Eliminate_row h (base + i) src (by omega) hs0 hsn (by omega) d s hgd hgs
    obtain ⟨hsb, hsz⟩ := hpiv s hgs
    have hdz : d.ZeroBelow src.toNat :=
      hrng (base + i).toNat d (by omega) (by push_cast; omega) hgd
    have hstep := zeroBelow_step hdf hsf src.toNat (by omega) hsb hsz hdz
    have hfit : Fits ls.n (if d.hasAt src.toNat then xorClosed d s else d) :=
      Fits_step hdf hsf src.toNat
    have hsh := h.set_row (base + i).toNat _ hfit
    obtain ⟨ls2, hl, h2, f2, hout, hin⟩ := ih (i + 1) _ hsh hs0 hsn (by omega)
      (by simp only [List.length_set]; omega)
      (fun s1 hs1 => by
        rw [List.getElem?_set, if_neg (by omega)] at hs1
        exact hpiv s1 hs1)
      (fun t r h1 h2 hr => by
        rw [List.getElem?_set, if_neg (by omega)] at hr
        exact hrng t r (by omega) (by push_cast; omega) hr)
    refine ⟨ls2, by simp only [EliminateDstRangeLoop, he, hl], h2,
      ⟨f2.1, f2.2.1, f2.2.2.1, f2.2.2.2.1, by rw [f2.2.2.2.2]; simp⟩, ?_, ?_⟩
    · intro t ht
      rw [hout t (by omega)]
      show (List.set ls.lines (base + i).toNat _)[t]? = _
      rw [List.getElem?_set, if_neg (by omega)]
    · intro t r h1 h2 hr
      by_cases ht : (t : Int) = base + i
      · rw [hout t (by omega)] at hr
        have hr2 : (List.set ls.lines (base + i).toNat
            (if d.hasAt src.toNat then xorClosed d s else d))[t]? = some r := hr
        rw [List.getElem?_set, if_pos (by omega), if_pos hdl] at hr2
        injection hr2 with hr2
        rw [← hr2]
        exact hstep
      · exact hin t r (by omega) (by push_cast at h2 ⊢; omega) hr

end LinearSystem
end Ezhik

namespace Ezhik
namespace LinearSystem
open bitSet

theorem swap_rows {lines : List bitSet} {p x : Nat} {li lp r : bitSet} (hpx : p ≤ x)
    (hli : lines[x]? = some li) (hlp : lines[p]? = some lp) (t : Nat)
    (ht : (List.set (List.set lines p li) x lp)[t]? = some r) :
    (t < p → lines[t]? = some r) ∧ (p ≤ t → ∃ t1, p ≤ t1 ∧ lines[t1]? = some r) := by
  rw [List.getElem?_set, List.getElem?_set] at ht
  by_cases hxt : x = t
  · rw [if_pos hxt] at ht
    split at ht
    · injection ht with ht
      subst ht
      exact ⟨fun h => by omega, fun _ => ⟨p, le_refl _, hlp⟩⟩
    · cases ht
  · rw [if_neg hxt] at ht
    by_cases hpt : p = t
    · rw [if_pos hpt] at ht
      split at ht
      · injection ht with ht
        subst ht
        exact ⟨fun h => by omega, fun _ => ⟨x, hpx, hli⟩⟩
      · cases ht
    · rw [if_neg hpt] at ht
      exact ⟨fun _ => ht, fun h => ⟨t, h, ht⟩⟩

theorem Promote_echelon {ls : LinearSystem} (h : Shape ls) (he : Echelon ls) (index : Int)
    (hpn : ls.pos < ls.n) (hpi : ls.pos ≤ index) (hil : index < ls.lines.length) :
    ∀ ls1, ls.Promote index = .returns () ls1 → Echelon ls1 := by
  intro ls1 hprom
  have hp0 := h.pos_nonneg
  have hlen := h.lens
  obtain ⟨li, hgi, himem, hli⟩ := getAt_of_lt ls.lines index (by omega) (by omega)
  obtain ⟨lp, hgp, hpmem, hlp⟩ := getAt_of_lt ls.lines ls.pos hp0 (by omega)
  obtain ⟨yi, hyi, -, -⟩ := getAt_of_lt ls.y index (by omega) (by omega)
  obtain ⟨yp, hyp, -, -⟩ := getAt_of_lt ls.y ls.pos hp0 (by omega)
  have hpx : ls.pos.toNat ≤ index.toNat := by omega
  have hrows : ∀ r ∈ List.set (List.set ls.lines ls.pos.toNat li) index.toNat lp,
      Fits ls.n r := by
    intro r hr
    rcases mem_of_mem_set hr with hr | hr
    · rcases mem_of_mem_set hr with hr | hr
      · exact h.rows r hr
      · exact hr ▸ h.rows li himem
    · exact hr ▸ h.rows lp hpmem
  obtain ⟨r, hgr, hrm, hrget⟩ := getAt_of_lt
    (List.set (List.set ls.lines ls.pos.toNat li) index.toNat lp) ls.pos hp0
    (by simp only [List.length_set]; omega)
  have hrf := hrows r hrm
  have hrn := hrf.2
  unfold Len at hrn
  obtain ⟨r1, hset, hr1inv, hr1n⟩ := Set_ok hrf.1 hp0 (by omega) true
  have hr1 : Fits ls.n r1 := ⟨hr1inv, by unfold Len; omega⟩
  -- the promoted row
  have hrz : r.ZeroBelow ls.pos.toNat := by
    obtain ⟨t1, ht1, hrt⟩ := (swap_rows hpx hli hlp ls.pos.toNat hrget).2 (le_refl _)
    have := (he t1 r hrt).2 (by omega)
    exact this
  have hr1b : r1.bit ls.pos.toNat = true := by
    rw [bit_Set hp0 hset, if_pos rfl]
  have hr1z : r1.ZeroBelow ls.pos.toNat := by
    intro j hj
    rw [bit_Set hp0 hset, if_neg (by omega)]
    exact hrz j hj
  have hsh : Shape (LinearSystem.mk ls.n
      (List.set (List.set (List.set ls.lines ls.pos.toNat li) index.toNat lp) ls.pos.toNat r1)
      (List.set (List.set ls.y ls.pos.toNat yi) index.toNat yp) (ls.pos + 1) ls.ready) := by
    refine ⟨?_, ?_, ?_, ?_, ?_⟩
    · intro x hx
      rcases mem_of_mem_set hx with hx | hx
      · exact hrows x hx
      · exact hx ▸ hr1
    · simp only [List.length_set]; exact hlen
    · show 0 ≤ ls.pos + 1
      omega
    · show ls.pos + 1 ≤ _
      simp only [List.length_set]; omega
    · left; show ls.pos + 1 ≤ ls.n; omega
  have e1 : (ls.pos + 1 - 1).toNat = ls.pos.toNat := by omega
  have hL3p : (List.set (List.set (List.set ls.lines ls.pos.toNat li) index.toNat lp)
      ls.pos.toNat r1)[ls.pos.toNat]? = some r1 := by
    rw [List.getElem?_set, if_pos rfl, if_pos (by simp only [List.length_set]; omega)]
  obtain ⟨ls4, hloop, h4, f4, hout, hin⟩ := EliminateDstRangeLoop_rows (ls.pos + 1)
    (ls.pos + 1 - 1)
    ((((List.set (List.set (List.set ls.lines ls.pos.toNat li) index.toNat lp)
          ls.pos.toNat r1).length : Int) - (ls.pos + 1)).toNat) 0 _ hsh
    (by omega) (by show ls.pos + 1 - 1 < ls.n; omega) (by omega)
    (by right; simp only [List.length_set]; omega)
    (fun s hs => by
      rw [e1] at hs ⊢
      have hs2 : (List.set (List.set (List.set ls.lines ls.pos.toNat li) index.toNat lp)
          ls.pos.toNat r1)[ls.pos.toNat]? = some s := hs
      rw [hL3p] at hs2
      injection hs2 with hs2
      rw [← hs2]
      exact ⟨hr1b, hr1z⟩)
    (fun t r2 h1 _ hr2 => by
      rw [e1]
      have hr3 : (List.set (List.set (List.set ls.lines ls.pos.toNat li) index.toNat lp)
          ls.pos.toNat r1)[t]? = some r2 := hr2
      rw [List.getElem?_set, if_neg (by omega)] at hr3
      obtain ⟨t1, ht1, hrt⟩ := (swap_rows hpx hli hlp t hr3).2 (by omega)
      exact (he t1 r2 hrt).2 (by omega))
  have hres : ls.Promote index = .returns () ls4 := by
    simp only [Promote, hgi, hgp, hyi, hyp, hgr, hset, EliminateDstRange]
    exact hloop
  rw [hres] at hprom
  injection hprom with _ hls
  subst hls
  have hpos4 : ls4.pos = ls.pos + 1 := f4.2.1
  have hlen4 : ls4.lines.length = ls.lines.length := by
    rw [f4.2.2.2.2]; simp only [List.length_set]
  intro k r2 hk
  have hkl : k < ls.lines.length := by
    have := (List.getElem?_eq_some.mp hk).1
    omega
  refine ⟨fun hlt => ?_, fun hge => ?_⟩
  · rw [hout k (by omega)] at hk
    have hk2 : (List.set (List.set (List.set ls.lines ls.pos.toNat li) index.toNat lp)
        ls.pos.toNat r1)[k]? = some r2 := hk
    by_cases hkp : k = ls.pos.toNat
    · rw [hkp, hL3p] at hk2
      injection hk2 with hk2
      rw [← hk2, hkp]
      exact ⟨hr1b, hr1z⟩
    · rw [List.getElem?_set, if_neg (by omega)] at hk2
      have := (swap_rows hpx hli hlp k hk2).1 (by omega)
      exact (he k r2 this).1 (by omega)
  · have e2 : ls4.pos.toNat = (ls.pos + 1 - 1).toNat + 1 := by omega
    rw [e2]
    exact hin k r2 (by omega) (by simp only [List.length_set]; omega) hk

theorem AddSweep_echelon :
    ∀ (fuel : Nat) (ls : LinearSystem), Shape ls → Echelon ls → ls.pos ≤ ls.n →
      ∀ ls1, AddSweep fuel ls = .returns () ls1 → Echelon ls1 := by
  intro fuel
  induction fuel with
  | zero =>
    intro ls _ he _ ls1 hsw
    unfold AddSweep at hsw
    split at hsw
    · cases hsw
    · injection hsw with _ hls
      exact hls ▸ he
  | succ f ih =>
    intro ls h he hle ls1 hsw
    by_cases hlt : ls.pos < ls.n
    · have hp0 := h.pos_nonneg
      have hpl := h.pos_le_len
      obtain ⟨i, hfo, hi⟩ := FindOneLoop_ok ls h ls.pos ls.pos hp0 hlt
        (((ls.lines.length : Int) - ls.pos).toNat) 0 (by omega) (by right; omega)
      unfold AddSweep at hsw
      simp only [if_pos hlt, FindOne, hfo] at hsw
      by_cases him : i = -1
      · rw [if_pos him] at hsw
        injection hsw with _ hls
        exact hls ▸ he
      · rw [if_neg him] at hsw
        have hir : ls.pos ≤ i ∧ i < ls.lines.length := by
          rcases hi with hi | hi
          · exact absurd hi him
          · omega
        obtain ⟨ls2, hpr, h2, hn2, hp2, -⟩ := Promote_ok h i hlt hir.1 hir.2
        have he2 := Promote_echelon h he i hlt hir.1 hir.2 ls2 hpr
        rw [hpr] at hsw
        exact ih ls2 h2 he2 (by omega) ls1 hsw
    · unfold AddSweep at hsw
      rw [if_neg hlt] at hsw
      injection hsw with _ hls
      exact hls ▸ he

theorem Add_echelon {ls : LinearSystem} (h : Shape ls) (he : Echelon ls) (line y : bitSet)
    (hl : Fits ls.n line) :
    ∀ b ls1, ls.Add line y = .returns b ls1 → Echelon ls1 := by
  intro b ls1 hadd
  rw [Add_eq_AddClosed h line y hl] at hadd
  unfold AddClosed at hadd
  by_cases hge : ls.pos ≥ ls.n
  · rw [if_pos hge] at hadd
    injection hadd with _ hls
    exact hls ▸ he
  · rw [if_neg hge] at hadd
    have hp0 := h.pos_nonneg
    have hpl := h.pos_le_len
    have hlen := h.lens
    -- the reduced candidate
    have hred := reduceClosed_zeroBelow ls.n (ls.lines.take ls.pos.toNat) line 0 hl
      (by rw [List.length_take]; omega)
      (fun t r ht => by
        have ht2 : t < ls.pos.toNat := by
          have := (List.getElem?_eq_some.mp ht).1
          rw [List.length_take] at this
          omega
        rw [List.getElem?_take_of_lt ht2] at ht
        have := (he t r ht).1 (by omega)
        rw [Nat.zero_add]
        exact ⟨h.rows r (List.getElem?_mem ht), this⟩)
      (fun j hj => by omega)
    rw [List.length_take, Nat.zero_add, Nat.min_eq_left (by omega)] at hred
    obtain ⟨hcf, hcz⟩ := hred
    have hsh2 : Shape (LinearSystem.mk ls.n
        (ls.lines ++ [reduceClosed (ls.lines.take ls.pos.toNat) line 0]) (ls.y ++ [y]) ls.pos
        ls.ready) := by
      refine ⟨?_, ?_, hp0, ?_, h.pos_le_n⟩
      · intro r hr
        rcases List.mem_append.mp hr with hr | hr
        · exact h.rows r hr
        · rw [List.mem_singleton] at hr; exact hr ▸ hcf
      · simp only [List.length_append, List.length_singleton]; omega
      · simp only [List.length_append, List.length_singleton]; push_cast; omega
    have hech2 : Echelon (LinearSystem.mk ls.n
        (ls.lines ++ [reduceClosed (ls.lines.take ls.pos.toNat) line 0]) (ls.y ++ [y]) ls.pos
        ls.ready) := by
      intro k r hk
      have hk2 : (ls.lines ++ [reduceClosed (ls.lines.take ls.pos.toNat) line 0])[k]? =
          some r := hk
      by_cases hkl : k < ls.lines.length
      · rw [List.getElem?_append_left hkl] at hk2
        exact he k r hk2
      · rw [List.getElem?_append_right (by omega)] at hk2
        have hk0 : k - ls.lines.length = 0 := by
          by_contra hc
          rw [List.getElem?_eq_none (by simp only [List.length_singleton]; omega)] at hk2
          cases hk2
        rw [hk0, List.getElem?_cons_zero] at hk2
        injection hk2 with hk2
        refine ⟨fun hlt => ?_, fun _ => hk2 ▸ hcz⟩
        have : (k : Int) < ls.pos := hlt
        omega
    simp only at hadd
    cases hgr : getAt (ls.lines ++ [reduceClosed (ls.lines.take ls.pos.toNat) line 0])
        (ls.lines.length : Int) with
    | none => rw [hgr] at hadd; cases hadd
    | some r =>
      rw [hgr] at hadd
      simp only at hadd
      cases hb : r.Has ls.pos with
      | error e => rw [hb] at hadd; cases hadd
      | ok bb =>
        rw [hb] at hadd
        cases bb with
        | false =>
          simp only at hadd
          injection hadd with _ hls
          exact hls ▸ hech2
        | true =>
          simp only at hadd
          obtain ⟨ls3, hpr, h3, hn3, hp3, -⟩ := Promote_ok hsh2 (ls.lines.length : Int)
            (by show ls.pos < ls.n; omega) (by show ls.pos ≤ _; omega)
            (by simp only [List.length_append, List.length_singleton]; push_cast; omega)
          have he3 := Promote_echelon hsh2 hech2 (ls.lines.length : Int)
            (by show ls.pos < ls.n; omega) (by show ls.pos ≤ _; omega)
            (by simp only [List.length_append, List.length_singleton]; push_cast; omega)
            ls3 hpr
          rw [hpr] at hadd
          simp only at hadd
          cases hsw : AddSweep (ls3.n - ls3.pos).toNat ls3 with
          | panics e ls4 => rw [hsw] at hadd; cases hadd
          | returns u ls4 =>
            rw [hsw] at hadd
            simp only at hadd
            injection hadd with _ hls
            have hp3' : ls3.pos = ls.pos + 1 := hp3
            have hn3' : ls3.n = ls.n := hn3
            exact hls ▸ AddSweep_echelon _ ls3 h3 he3 (by omega) ls4 hsw

theorem Reached.echelon {n : Int} {ls : LinearSystem} (h : Reached n ls) : Echelon ls := by
  induction h with
  | start =>
    intro k r hk
    simp [empty] at hk
  | add ls ls1 line y b hr hl ha ih =>
    exact Add_echelon hr.has_shape.1 ih line y (by rw [hr.has_shape.2]; exact hl) b ls1 ha

end LinearSystem
end Ezhik

namespace Ezhik
namespace bitSet

theorem Has_in_words (bs : bitSet) {i : Int} (h0 : 0 ≤ i)
    (hi : (i / 64).toNat < bs.a.length) : ∃ b, bs.Has i = .ok b := by
  obtain ⟨w, hw, -, -⟩ := getAt_of_lt bs.a (i / 64) (by omega) hi
  exact ⟨w >>> (i % 64).toNat != 0, by simp only [Has, hw]⟩

theorem Set_in_words {bs : bitSet} (h : bs.Inv) {i : Int} (h0 : 0 ≤ i)
    (hi : (i / 64).toNat < bs.a.length) (val : Bool) :
    ∃ bs1, bs.Set i val = .returns () bs1 ∧ bs1.Inv ∧ bs1.n = bs.n := by
  obtain ⟨w, hw, hmem, -⟩ := getAt_of_lt bs.a (i / 64) (by omega) hi
  refine ⟨bitSet.mk (List.set bs.a (i / 64).toNat
      (if val then w ||| (1 <<< (i % 64).toNat)
       else w &&& (allOnes ^^^ (1 <<< (i % 64).toNat)))) bs.n, by simp only [Set, hw],
    ⟨h.1, ?_, ?_⟩, rfl⟩
  · simpa using h.2.1
  · intro x hx
    rcases mem_of_mem_set hx with hx | hx
    · exact h.2.2 x hx
    · have hwlt := h.2.2 w hmem
      have hs : (i % 64).toNat < 64 := by omega
      subst hx
      cases val
      · simp only [Bool.false_eq_true, if_false]
        exact lt_of_le_of_lt Nat.and_le_left hwlt
      · simp only [if_true]
        apply Nat.or_lt_two_pow hwlt
        rw [Nat.one_shiftLeft]
        exact Nat.pow_lt_pow_right (by decide) hs

end bitSet
end Ezhik

namespace Ezhik
namespace LinearSystem
open bitSet

/-- C2: in every state reached from the empty system with `n >= 0` unknowns by `Add`
calls with coefficient bit sets of `Len n`, a further such `Add` returns, and it returns
true if and only if `pos == n` holds when the call returns. The guard of `Add` being
`pos >= n`, for any `n` the result is true if and only if `pos >= n` holds then. -/
theorem Add_true_iff_full (n : Int) (ls : LinearSystem) (h : Reached n ls)
    (line y : bitSet) (hl : Fits n line) :
    ∃ b ls1, ls.Add line y = .returns b ls1 ∧ (b = true ↔ ls1.n ≤ ls1.pos) ∧
      (0 ≤ n → (b = true ↔ ls1.pos = ls1.n)) := by
  obtain ⟨hs, hn⟩ := h.has_shape
  obtain ⟨b, ls1, hadd, h1, hn1, -, hb, -⟩ := Add_ok hs line y (by rw [hn]; exact hl)
  refine ⟨b, ls1, hadd, by rw [hn1]; exact hb, fun h0 => ?_⟩
  rw [hb]
  have := h1.pos_le_n
  constructor <;> intro hh <;> omega

/-- C2 at the second equation of the end-to-end example: the system holds `[1,0]`, and
`[1,1]` is added. -/
theorem Add_true_iff_full_witness :
    ∃ b ls1, afterA.Add ⟨[3], 2⟩ ⟨[3], 8⟩ = .returns b ls1 ∧ (b = true ↔ ls1.n ≤ ls1.pos) ∧
      (b = true ↔ ls1.pos = ls1.n) :=
  let ⟨b, ls1, h1, h2, h3⟩ := Add_true_iff_full 2 afterA
    (Reached.add (empty 2) afterA ⟨[1], 2⟩ ⟨[1], 8⟩ false Reached.start (by decide)
      (by decide!))
    ⟨[3], 2⟩ ⟨[3], 8⟩ (by decide)
  ⟨b, ls1, h1, h2, h3 (by decide)⟩

/-- C4: fewer than `n` equations (so `n >= 1`), with coefficient bit sets of `Len n`, fed
to the empty system with `n` unknowns: every `Add` returns false, and `Backtrack` on the
state they leave panics with "Backtrack: ls.pos < ls.n". -/
theorem Add_false_while_underdetermined (n : Int) (eqs : List (bitSet × bitSet))
    (hfit : ∀ e ∈ eqs, Fits n e.1) (hlen : (eqs.length : Int) < n) :
    ∃ ls, AddAll (empty n) eqs = .returns (List.replicate eqs.length false) ls ∧
      ls.Backtrack = .panics .backtrackTooEarly ls := by
  obtain ⟨ls, hall, hs, hn, hl⟩ := AddAll_short (n := n) eqs (empty n) (Shape.empty n) rfl
    hfit (by simpa [empty] using hlen)
  refine ⟨ls, hall, Backtrack_early ?_⟩
  have := hs.pos_le_len
  simp only [empty, List.length_nil] at hl
  omega

/-- C4 at `n = 3` with the two equations `[1,0,0]` and `[0,1,0]`. -/
theorem Add_false_while_underdetermined_witness :
    ∃ ls, AddAll (empty 3) [(⟨[1], 3⟩, ⟨[1], 8⟩), (⟨[2], 3⟩, ⟨[2], 8⟩)] =
        .returns (List.replicate
          [((⟨[1], 3⟩ : bitSet), (⟨[1], 8⟩ : bitSet)), (⟨[2], 3⟩, ⟨[2], 8⟩)].length false) ls ∧
      ls.Backtrack = .panics .backtrackTooEarly ls :=
  Add_false_while_underdetermined 3 [(⟨[1], 3⟩, ⟨[1], 8⟩), (⟨[2], 3⟩, ⟨[2], 8⟩)]
    (by decide) (by decide)

/-- C5: in every state reached from the empty system by `Add` calls with coefficient bit
sets of `Len n`, `Backtrack` panics if and only if `pos < n`; it then panics with
"Backtrack: ls.pos < ls.n" on an unchanged system; otherwise it returns with `ready` true
and with `n` and `pos` as they were. -/
theorem Backtrack_panics_iff_early (n : Int) (ls : LinearSystem) (h : Reached n ls) :
    ((∃ e s, ls.Backtrack = .panics e s) ↔ ls.pos < ls.n) ∧
      (ls.pos < ls.n → ls.Backtrack = .panics .backtrackTooEarly ls) ∧
      (¬ ls.pos < ls.n → ∃ ls1, ls.Backtrack = .returns () ls1 ∧ ls1.ready = true ∧
        ls1.n = ls.n ∧ ls1.pos = ls.pos) := by
  refine ⟨⟨?_, fun hlt => ⟨_, _, Backtrack_early hlt⟩⟩, Backtrack_early, fun hge => ?_⟩
  · rintro ⟨e, s, hp⟩
    by_contra hge
    obtain ⟨ls1, hb, -⟩ := Backtrack_ok h.has_shape.1 hge
    rw [hb] at hp
    cases hp
  · obtain ⟨ls1, hb, -, hr, hn, hp, -⟩ := Backtrack_ok h.has_shape.1 hge
    exact ⟨ls1, hb, hr, hn, hp⟩

/-- C5 at the state of the end-to-end example after its two equations. -/
theorem Backtrack_panics_iff_early_witness :
    ((∃ e s, afterB.Backtrack = .panics e s) ↔ afterB.pos < afterB.n) ∧
      (afterB.pos < afterB.n → afterB.Backtrack = .panics .backtrackTooEarly afterB) ∧
      (¬ afterB.pos < afterB.n → ∃ ls1, afterB.Backtrack = .returns () ls1 ∧
        ls1.ready = true ∧ ls1.n = afterB.n ∧ ls1.pos = afterB.pos) :=
  Backtrack_panics_iff_early 2 afterB
    (Reached.add afterA afterB ⟨[3], 2⟩ ⟨[3], 8⟩ true
      (Reached.add (empty 2) afterA ⟨[1], 2⟩ ⟨[1], 8⟩ false Reached.start (by decide)
        (by decide!))
      (by decide) (by decide!))

end LinearSystem
end Ezhik

namespace Ezhik
namespace LinearSystem
open bitSet

/-- C6, as stated, fails for `n = 0`: the empty system with no unknowns passes
`Backtrack`, so `ready` is true, and `Solve` then panics on `ls.y[0]`, there being no
value to take the block length from. -/
theorem Solve_panics_ready_no_unknowns :
    ReachedBy 0 8 (LinearSystem.mk 0 [] [] 0 true) ∧
      (LinearSystem.mk 0 [] [] 0 true).ready = true ∧
      (LinearSystem.mk 0 [] [] 0 true).Solve =
        .panics .indexOutOfRange (LinearSystem.mk 0 [] [] 0 true) :=
  ⟨ReachedBy.backtrack (empty 0) _ ReachedBy.start (by decide), by decide, by decide⟩

/-- C6 (amended): for `n >= 1`, in every state reached from the empty system with `n`
unknowns by `Add` calls (coefficients of `Len n`, values of `Len blockLen`) and `Backtrack`
calls, `Solve` panics if and only if `ready` is false; when `ready` is true it returns
exactly `n` bit sets, each of `Len blockLen`, and leaves the system as it was. -/
theorem Solve_panics_iff_not_ready (n blockLen : Int) (hn : 1 ≤ n) (ls : LinearSystem)
    (h : ReachedBy n blockLen ls) :
    ((∃ e s, ls.Solve = .panics e s) ↔ ls.ready = false) ∧
      (ls.ready = true → ∃ x, ls.Solve = .returns x ls ∧ (x.length : Int) = n ∧
        ∀ v ∈ x, Fits blockLen v) := by
  obtain ⟨hs, hnn, hy, hr⟩ := h.has_shape_by
  have key : ls.ready = true → ∃ x, ls.Solve = .returns x ls ∧ (x.length : Int) = n ∧
      ∀ v ∈ x, Fits blockLen v := by
    intro hrd
    obtain ⟨x, hx, hl, hf⟩ := Solve_ok hs hy hrd (by omega) (hr hrd)
    exact ⟨x, hx, by omega, hf⟩
  refine ⟨⟨?_, fun hrd => ⟨_, _, Solve_not_ready hrd⟩⟩, key⟩
  rintro ⟨e, s, hp⟩
  cases hrd : ls.ready with
  | false => rfl
  | true =>
    obtain ⟨x, hx, -⟩ := key hrd
    rw [hx] at hp
    cases hp

/-- C6 (amended) at the end-to-end example, after its two equations and `Backtrack`. -/
theorem Solve_panics_iff_not_ready_witness :
    ((∃ e s, afterBacktrack.Solve = .panics e s) ↔ afterBacktrack.ready = false) ∧
      (afterBacktrack.ready = true → ∃ x, afterBacktrack.Solve = .returns x afterBacktrack ∧
        (x.length : Int) = 2 ∧ ∀ v ∈ x, Fits 8 v) :=
  Solve_panics_iff_not_ready 2 8 (by decide) afterBacktrack
    (ReachedBy.backtrack afterB afterBacktrack
      (ReachedBy.add afterA afterB ⟨[3], 2⟩ ⟨[3], 8⟩ true
        (ReachedBy.add (empty 2) afterA ⟨[1], 2⟩ ⟨[1], 8⟩ false ReachedBy.start
          (by decide) (by decide) (by decide!))
        (by decide) (by decide) (by decide!))
      (by decide!))

/-- C7: whenever `Solve` returns, it leaves every field of the system (`n`, `lines`, `y`,
`pos`, `ready`) as it was, and a second `Solve` returns the same sequence of bit sets. -/
theorem Solve_idempotent (ls ls1 : LinearSystem) (x : List bitSet)
    (h : ls.Solve = .returns x ls1) :
    (ls1.n = ls.n ∧ ls1.lines = ls.lines ∧ ls1.y = ls.y ∧ ls1.pos = ls.pos ∧
      ls1.ready = ls.ready) ∧ ls1.Solve = .returns x ls1 := by
  have hst : ls1 = ls := by
    unfold Solve at h
    split at h
    · cases h
    · split at h
      · cases h
      · split at h
        · cases h
        · split at h
          · cases h
          · injection h with _ hls
            exact hls.symm
  subst hst
  exact ⟨⟨rfl, rfl, rfl, rfl, rfl⟩, h⟩

/-- C7 at the end-to-end example: `Solve` returns `[00000001, 00000010]`, twice. -/
theorem Solve_idempotent_witness :
    (afterBacktrack.n = afterBacktrack.n ∧ afterBacktrack.lines = afterBacktrack.lines ∧
      afterBacktrack.y = afterBacktrack.y ∧ afterBacktrack.pos = afterBacktrack.pos ∧
      afterBacktrack.ready = afterBacktrack.ready) ∧
      afterBacktrack.Solve = .returns [⟨[1], 8⟩, ⟨[2], 8⟩] afterBacktrack :=
  Solve_idempotent afterBacktrack afterBacktrack [⟨[1], 8⟩, ⟨[2], 8⟩] (by decide!)

end LinearSystem
end Ezhik

namespace Ezhik
namespace bitSet

/-- C9: for a bit set `v` obtained from `NewBitSet(n)` by `Set` calls at indices below `n`,
`v.XorWith(v)` returns and leaves `v` with `Len n`, with as many words as before, and with
every stored word equal to 0. -/
theorem XorWithSelf_all_zero (n : Int) (v : bitSet) (h : Built n v) :
    ∃ v1, v.XorWithSelf = .returns () v1 ∧ v1.Len = n ∧ v1.a.length = v.a.length ∧
      ∀ w ∈ v1.a, w = 0 := by
  obtain ⟨hf, hclean⟩ := h.facts
  have hn := hf.2
  unfold Len at hn
  obtain ⟨v1, hloop, hf1, hbit⟩ := XorWithLoop_self n v.n.toNat 0 v hf (le_refl _) (by omega)
  refine ⟨v1, ?_, hf1.2, ?_, words_zero_of_bits hf1.1 fun j => ?_⟩
  · unfold XorWithSelf XorWithFrom
    rw [if_neg (by simp)]
    exact hloop
  · have h1 := hf1.1.2.1
    have h2 := hf.1.2.1
    have h3 := hf1.2
    unfold Len at h3
    rw [h3, ← hn] at h1
    omega
  · rw [hbit j]
    split_ifs with hc
    · rfl
    · exact hclean j (by omega)

/-- C9 at `n = 2` with bit 1 set: the word `10` becomes `00`. -/
theorem XorWithSelf_all_zero_witness :
    ∃ v1, (⟨[2], 2⟩ : bitSet).XorWithSelf = .returns () v1 ∧ v1.Len = 2 ∧
      v1.a.length = (⟨[2], 2⟩ : bitSet).a.length ∧ ∀ w ∈ v1.a, w = 0 :=
  XorWithSelf_all_zero 2 ⟨[2], 2⟩
    (Built.set ⟨[0], 2⟩ ⟨[2], 2⟩ 1 true (Built.new ⟨[0], 2⟩ (by decide)) (by decide)
      (by decide) (by decide))

/-- C8 does not hold of the code. With `n = 2`, `a` holding bit 1 only and `b` empty,
`a.XorWith(b)` leaves the word `11` in `a`: bit 0 of `a` is then 1, while the exclusive or
of the old bit 0 of `a` and bit 0 of `b` is 0. (`Has(0)` is true of `a` because the shifted
word is not masked down to one bit.) The bitwise exclusive or would have been `10`. -/
theorem XorWith_not_bitwise :
    Built 2 ⟨[2], 2⟩ ∧ Built 2 ⟨[0], 2⟩ ∧
      (⟨[2], 2⟩ : bitSet).XorWith ⟨[0], 2⟩ = .returns () ⟨[3], 2⟩ ∧
      (⟨[3], 2⟩ : bitSet).bit 0 = true ∧
      ((⟨[2], 2⟩ : bitSet).bit 0 ^^ (⟨[0], 2⟩ : bitSet).bit 0) = false ∧
      xorWords ⟨[2], 2⟩ ⟨[0], 2⟩ = ⟨[2], 2⟩ :=
  ⟨Built.set ⟨[0], 2⟩ ⟨[2], 2⟩ 1 true (Built.new ⟨[0], 2⟩ (by decide)) (by decide)
      (by decide) (by decide),
    Built.new ⟨[0], 2⟩ (by decide), by decide!, by decide!, by decide!, by decide!⟩

/-- C10 does not hold of the code. In a bit set of `Len 2`: `Has(0)` is false of the empty
set and true after `Set(1, true)`, although index 0 was not written; and after
`Set(0, false)` on the set holding bit 1, `Has(0)` returns true, not the value written. -/
theorem Has_reads_higher_bits :
    NewBitSet 2 = .ok ⟨[0], 2⟩ ∧
      (⟨[0], 2⟩ : bitSet).Has 0 = .ok false ∧
      (⟨[0], 2⟩ : bitSet).Set 1 true = .returns () ⟨[2], 2⟩ ∧
      (⟨[2], 2⟩ : bitSet).Has 0 = .ok true ∧
      (⟨[2], 2⟩ : bitSet).Set 0 false = .returns () ⟨[2], 2⟩ ∧
      (⟨[2], 2⟩ : bitSet).bit 0 = false :=
  ⟨by decide, by decide, by decide, by decide, by decide, by decide!⟩

end bitSet

namespace LinearSystem
open bitSet

/-- C1 does not hold of the code. (1) `n = 1`, the one equation `[1]` with value `00000101`
for the ground truth `x = [00000101]`: the `Add` returns true, and `Solve` returns
`[00000111]`. (2) The equations of the end-to-end example fed in the other order, `[1,1]`
then `[1,0]`, for `x = [00000001, 00000010]`: the last `Add` returns true, and `Solve`
returns `[00000010, 00000010]`. (3) The independent rows `[1,1]` and `[0,1]` for the same
`x`: the last `Add` returns false and `Backtrack` panics. In the order of the
specification the example does decode to `x`. Bit sets are written by their words, bit 0
the lowest. -/
theorem Decode_not_ground_truth :
    (Independent 1 [⟨[1], 1⟩] ∧ codedBlock 8 ⟨[1], 1⟩ [⟨[5], 8⟩] = ⟨[5], 8⟩ ∧
      Decode 1 [(⟨[1], 1⟩, ⟨[5], 8⟩)] =
        .returns ([true], [⟨[7], 8⟩]) ⟨1, [⟨[1], 1⟩], [⟨[5], 8⟩], 1, true⟩) ∧
    (Independent 2 [⟨[3], 2⟩, ⟨[1], 2⟩] ∧
      codedBlock 8 ⟨[3], 2⟩ [⟨[1], 8⟩, ⟨[2], 8⟩] = ⟨[3], 8⟩ ∧
      codedBlock 8 ⟨[1], 2⟩ [⟨[1], 8⟩, ⟨[2], 8⟩] = ⟨[1], 8⟩ ∧
      Decode 2 [(⟨[3], 2⟩, ⟨[3], 8⟩), (⟨[1], 2⟩, ⟨[1], 8⟩)] =
        .returns ([false, true], [⟨[2], 8⟩, ⟨[2], 8⟩])
          ⟨2, [⟨[3], 2⟩, ⟨[2], 2⟩], [⟨[3], 8⟩, ⟨[1], 8⟩], 2, true⟩) ∧
    (Independent 2 [⟨[3], 2⟩, ⟨[2], 2⟩] ∧
      codedBlock 8 ⟨[2], 2⟩ [⟨[1], 8⟩, ⟨[2], 8⟩] = ⟨[2], 8⟩ ∧
      Decode 2 [(⟨[3], 2⟩, ⟨[3], 8⟩), (⟨[2], 2⟩, ⟨[2], 8⟩)] =
        .panics .backtrackTooEarly
          ⟨2, [⟨[3], 2⟩, ⟨[0], 2⟩], [⟨[3], 8⟩, ⟨[2], 8⟩], 1, false⟩) ∧
    Decode 2 [(⟨[1], 2⟩, ⟨[1], 8⟩), (⟨[3], 2⟩, ⟨[3], 8⟩)] =
      .returns ([false, true], [⟨[1], 8⟩, ⟨[2], 8⟩]) afterBacktrack :=
  ⟨⟨by decide!, by decide!, by decide!⟩, ⟨by decide!, by decide!, by decide!, by decide!⟩,
    ⟨by decide!, by decide!, by decide!⟩, by decide!⟩

end LinearSystem
end Ezhik

namespace Ezhik
namespace LinearSystem
open bitSet

set_option maxRecDepth 1000000 in
theorem fedRow_fits : ∀ k, k < 64 → Fits 65 (fedRow k) := by decide!

set_option maxRecDepth 1000000 in
theorem fed_step_closed :
    ∀ k, k < 64 → (fedState k).AddClosed (fedRow k) (fedRow k) =
      .returns false (fedState (k + 1)) := by decide!

set_option maxRecDepth 1000000 in
theorem fed_last_closed :
    (fedState 64).AddClosed dependentRow dependentRow = .returns true fedStateFull := by
  decide!

theorem fed_reached : ∀ k, k ≤ 64 → Reached 65 (fedState k) := by
  intro k
  induction k with
  | zero => intro _; exact Reached.start
  | succ k ih =>
    intro hk
    have hr := ih (by omega)
    have hfit := fedRow_fits k (by omega)
    refine Reached.add (fedState k) (fedState (k + 1)) (fedRow k) (fedRow k) false hr hfit ?_
    rw [Add_eq_AddClosed hr.has_shape.1 _ _ hfit]
    exact fed_step_closed k (by omega)

/-- C3 does not hold of the code once a coefficient vector takes more than one word.
With 65 unknowns, the 64 vectors `fedRow k` (bit `k`; for `k = 0` bit 64 as well) are added
in turn: each `Add` returns false and promotes its vector, `pos` going from `k` to `k+1`.
In the state reached, `pos = 64 < 65`. The exclusive or of the first two of these vectors
(bits 0, 1 and 64) is then added: `Add` returns true and `pos` becomes 65. -/
theorem Add_promotes_dependent_row :
    (∀ k, k < 64 → Fits 65 (fedRow k) ∧
      (fedState k).Add (fedRow k) (fedRow k) = .returns false (fedState (k + 1)) ∧
      (fedState (k + 1)).pos = (fedState k).pos + 1) ∧
    Reached 65 (fedState 64) ∧ (fedState 64).pos < (fedState 64).n ∧
    (fedState 64).y = (List.range 64).map fedRow ∧
    Fits 65 dependentRow ∧ dependentRow = xorWords (fedRow 0) (fedRow 1) ∧
    (fedState 64).Add dependentRow dependentRow = .returns true fedStateFull ∧
    fedStateFull.pos = (fedState 64).pos + 1 := by
  have h64 := fed_reached 64 (le_refl _)
  refine ⟨fun k hk => ⟨fedRow_fits k hk, ?_, ?_⟩, h64, by decide, rfl, by decide, by decide!,
    ?_, by decide⟩
  · have hr := fed_reached k (by omega)
    rw [Add_eq_AddClosed hr.has_shape.1 _ _ (fedRow_fits k hk)]
    exact fed_step_closed k hk
  · show ((k + 1 : Nat) : Int) = (k : Int) + 1
    push_cast
    rfl
  · rw [Add_eq_AddClosed h64.has_shape.1 dependentRow dependentRow
      (show Fits 65 dependentRow by decide)]
    exact fed_last_closed

end LinearSystem
end Ezhik

namespace Ezhik
namespace bitSet

/-- C11: `a.XorWith(b)` panics with "XorWith: different lengths" whenever `a.Len() != b.Len()`,
and `a` is then as it was (`b` is only ever read by `XorWith`); when both were obtained
from `NewBitSet(n)` by `Set` calls at indices below `n`, so that their lengths are equal,
`a.XorWith(b)` returns, and so does `a.XorWith(a)`. -/
theorem XorWith_checks_length (a b : bitSet) :
    (a.Len ≠ b.Len → a.XorWith b = .panics .xorWithDifferentLengths a) ∧
      (∀ n, Built n a → Built n b →
        (∃ a1, a.XorWith b = .returns () a1) ∧ ∃ a2, a.XorWithSelf = .returns () a2) := by
  refine ⟨fun h => ?_, fun n ha hb => ⟨?_, ?_⟩⟩
  · unfold XorWith XorWithFrom
    rw [if_pos h]
  · obtain ⟨a1, h1, -⟩ := XorWith_ok ha.facts.1 hb.facts.1
    exact ⟨a1, h1⟩
  · obtain ⟨a2, h2, -⟩ := XorWithSelf_ok ha.facts.1
    exact ⟨a2, h2⟩

/-- C11 at a bit set of `Len 2` against one of `Len 3`, and against one of `Len 2`. -/
theorem XorWith_checks_length_witness :
    (⟨[2], 2⟩ : bitSet).XorWith ⟨[0], 3⟩ = .panics .xorWithDifferentLengths ⟨[2], 2⟩ ∧
      ((∃ a1, (⟨[2], 2⟩ : bitSet).XorWith ⟨[0], 2⟩ = .returns () a1) ∧
        ∃ a2, (⟨[2], 2⟩ : bitSet).XorWithSelf = .returns () a2) :=
  ⟨(XorWith_checks_length ⟨[2], 2⟩ ⟨[0], 3⟩).1 (by decide),
    (XorWith_checks_length ⟨[2], 2⟩ ⟨[0], 2⟩).2 2
      (Built.set ⟨[0], 2⟩ ⟨[2], 2⟩ 1 true (Built.new ⟨[0], 2⟩ (by decide)) (by decide)
        (by decide) (by decide))
      (Built.new ⟨[0], 2⟩ (by decide))⟩

/-- C13, as stated, fails between `Len` and the end of the last word: in a bit set of
`Len 2` (one word), `Has(5)` returns false instead of failing, and `Set(5, true)` returns
and changes the word. -/
theorem Has_Set_beyond_Len_succeed :
    NewBitSet 2 = .ok ⟨[0], 2⟩ ∧ (⟨[0], 2⟩ : bitSet).Len = 2 ∧
      (⟨[0], 2⟩ : bitSet).Has 5 = .ok false ∧
      (⟨[0], 2⟩ : bitSet).Set 5 true = .returns () ⟨[32], 2⟩ :=
  ⟨by decide, by decide, by decide, by decide⟩

/-- C13 (amended): for a bit set `v` of `Len n`, an index `i` and either boolean `b`.
If `i < 0` or `i >= 64 * ((n+63)/64)`, the number of bits in the words of `v`, then
`v.Has(i)` fails and `v.Set(i, b)` fails, with an index out of range, and `v` is not
modified. If `0 <= i < 64 * ((n+63)/64)`, which for `n >= 0` includes every `i` from `n`
to the end of the last word, neither call fails: `Has` returns a boolean and `Set`
returns, leaving a bit set of `Len n`. -/
theorem Has_Set_fail_beyond_words_only (n : Int) (v : bitSet) (hv : Fits n v) (i : Int)
    (b : Bool) :
    ((i < 0 ∨ 64 * (n + 63).tdiv 64 ≤ i) →
        v.Has i = .error .indexOutOfRange ∧ v.Set i b = .panics .indexOutOfRange v) ∧
      ((0 ≤ i ∧ i < 64 * (n + 63).tdiv 64) →
        (∃ r, v.Has i = .ok r) ∧ ∃ w, v.Set i b = .returns () w ∧ Fits n w) := by
  have hlen := hv.1.2.1
  have hn := hv.2
  unfold Len at hn
  rw [hn] at hlen
  constructor
  · intro hi
    have hg : getAt v.a (i / 64) = none := by
      unfold getAt
      split
      · rfl
      · exact List.getElem?_eq_none (by omega)
    exact ⟨by simp only [Has, hg], by simp only [Set, hg]⟩
  · intro hi
    have hw : (i / 64).toNat < v.a.length := by omega
    obtain ⟨w, hset, hinv, hwn⟩ := Set_in_words hv.1 hi.1 hw b
    exact ⟨Has_in_words v hi.1 hw, w, hset, hinv, by unfold Len; rw [hwn, hn]⟩

/-- C13 (amended) at `Len 2` (one word): index 64 is past the word and both calls fail;
index 2, the first one at or beyond `Len`, is inside the word and both calls return. -/
theorem Has_Set_fail_beyond_words_only_witness :
    ((⟨[0], 2⟩ : bitSet).Has 64 = .error .indexOutOfRange ∧
        (⟨[0], 2⟩ : bitSet).Set 64 true = .panics .indexOutOfRange ⟨[0], 2⟩) ∧
      ((∃ r, (⟨[0], 2⟩ : bitSet).Has 2 = .ok r) ∧
        ∃ w, (⟨[0], 2⟩ : bitSet).Set 2 true = .returns () w ∧ Fits 2 w) :=
  ⟨(Has_Set_fail_beyond_words_only 2 ⟨[0], 2⟩ (by decide) 64 true).1 (Or.inr (by decide)),
    (Has_Set_fail_beyond_words_only 2 ⟨[0], 2⟩ (by decide) 2 true).2
      ⟨by decide, by decide⟩⟩

end bitSet

namespace LinearSystem
open bitSet

/-- C15: on a system with `pos == n`, `Add(line, y)` returns true whatever `line` and `y`
are, and the system it leaves is the one it was called on: nothing is appended, and
`lines`, `y`, `pos`, `n` and `ready` are as before. -/
theorem Add_full_is_noop (ls : LinearSystem) (line y : bitSet) (h : ls.pos = ls.n) :
    ls.Add line y = .returns true ls := by
  unfold Add
  rw [if_pos (by omega)]

/-- C15 at the end-to-end example after its two equations. -/
theorem Add_full_is_noop_witness :
    afterB.Add ⟨[1], 2⟩ ⟨[1], 8⟩ = .returns true afterB :=
  Add_full_is_noop afterB ⟨[1], 2⟩ ⟨[1], 8⟩ (by decide)

/-- C20: in every state reached from the empty system with `n` unknowns by `Add` calls
with coefficient bit sets of `Len n`, a further `Add` with such a bit set and any value
returns: no index is out of range, no `XorWith` meets different lengths, and the sweep
loop ends within the `n - pos` iterations it is given. `pos` does not decrease and, when
it was below `n`, stays at most `n`. -/
theorem Add_returns (n : Int) (ls : LinearSystem) (h : Reached n ls) (line y : bitSet)
    (hl : Fits n line) :
    ∃ b ls1, ls.Add line y = .returns b ls1 ∧ ls.pos ≤ ls1.pos ∧
      (ls.pos < n → ls1.pos ≤ n) := by
  obtain ⟨hs, hn⟩ := h.has_shape
  obtain ⟨b, ls1, hadd, h1, hn1, -, hb, hp, -⟩ := Add_ok hs line y (by rw [hn]; exact hl)
  refine ⟨b, ls1, hadd, hp, fun hlt => ?_⟩
  have := h1.pos_le_n
  have := hs.pos_nonneg
  omega

/-- C20 at the second equation of the end-to-end example. -/
theorem Add_returns_witness :
    ∃ b ls1, afterA.Add ⟨[3], 2⟩ ⟨[3], 8⟩ = .returns b ls1 ∧ afterA.pos ≤ ls1.pos ∧
      (afterA.pos < 2 → ls1.pos ≤ 2) :=
  Add_returns 2 afterA
    (Reached.add (empty 2) afterA ⟨[1], 2⟩ ⟨[1], 8⟩ false Reached.start (by decide)
      (by decide!))
    ⟨[3], 2⟩ ⟨[3], 8⟩ (by decide)

end LinearSystem
end Ezhik

namespace Ezhik
namespace bitSet

theorem GetMaskLoop_bits (R : Rand) (n : Int) (seed : Int) :
    ∀ (k : Nat) (i : Int) (res : bitSet), Built n res → 0 ≤ i → (k = 0 ∨ i + k ≤ n) →
      ∃ res1, GetMaskLoop R k i (Rand.after R i.toNat (R.newSource seed)) res =
          .returns () res1 ∧ Built n res1 ∧
        ∀ j : Nat, res1.bit j =
          if i ≤ (j : Int) ∧ (j : Int) < i + k then (R.draw seed j == 0) else res.bit j := by
  intro k
  induction k with
  | zero =>
    intro i res hres _ _
    refine ⟨res, rfl, hres, fun j => ?_⟩
    rw [if_neg (by omega)]
  | succ k ih =>
    intro i res hres h0 hk
    have hf := hres.facts.1
    have hn := hf.2
    unfold Len at hn
    obtain ⟨res1, hs, -, -⟩ := Set_ok hf.1 h0 (by omega)
      ((R.intn (Rand.after R i.toNat (R.newSource seed)) 2).1 == 0)
    have hb1 : Built n res1 := Built.set res res1 i _ hres h0 (by omega) hs
    have hafter : (R.intn (Rand.after R i.toNat (R.newSource seed)) 2).2 =
        Rand.after R (i + 1).toNat (R.newSource seed) := by
      have e : (i + 1).toNat = i.toNat + 1 := by omega
      rw [e]
      generalize R.newSource seed = r0
      generalize i.toNat = m
      induction m generalizing r0 with
      | zero => rfl
      | succ m ihm => exact ihm (R.intn r0 2).2
    obtain ⟨res2, h2, hb2, hbit⟩ := ih (i + 1) res1 hb1 (by omega) (by omega)
    refine ⟨res2, ?_, hb2, fun j => ?_⟩
    · simp only [GetMaskLoop, hs, hafter]
      exact h2
    · rw [hbit j, bit_Set h0 hs j]
      by_cases hj : i + 1 ≤ (j : Int) ∧ (j : Int) < i + 1 + k
      · rw [if_pos hj, if_pos (by push_cast; omega)]
      · rw [if_neg hj]
        by_cases hji : j = i.toNat
        · rw [if_pos hji, if_pos (by push_cast; omega), hji]
          rfl
        · rw [if_neg hji, if_neg (by push_cast; omega)]

/-- C14: for every generator, every `n >= 0` and every seed, `GetMask(n, seed)` is a
function of `n`, of the seed and of the stream of draws of that seed: whenever it can
allocate (`n + 63` does not overflow) it returns a bit set of `Len n` whose stored bit `i`,
for `i < n`, is 1 exactly when draw number `i` of the seed is 0, and that has no other bit;
so two calls return the same bit set. -/
theorem GetMask_deterministic (R : Rand) (n seed : Int) (h0 : 0 ≤ n) :
    (n + 63 ≤ maxInt → ∃ v, GetMask R n seed = .ok v) ∧
      (∀ v, GetMask R n seed = .ok v → v.Len = n ∧
        ∀ j : Nat, v.bit j = (decide ((j : Int) < n) && (R.draw seed j == 0))) ∧
      (∀ v1 v2, GetMask R n seed = .ok v1 → GetMask R n seed = .ok v2 → v1 = v2) := by
  have key : ∀ res, NewBitSet n = .ok res → ∃ v, GetMask R n seed = .ok v ∧ v.Len = n ∧
      ∀ j : Nat, v.bit j = (decide ((j : Int) < n) && (R.draw seed j == 0)) := by
    intro res hres
    have hb : Built n res := Built.new res hres
    obtain ⟨v, hloop, hbv, hbit⟩ := GetMaskLoop_bits R n seed n.toNat 0 res hb (le_refl _)
      (by omega)
    refine ⟨v, ?_, hbv.facts.1.2, fun j => ?_⟩
    · unfold GetMask
      simp only [hres]
      rw [Int.toNat_zero] at hloop
      simp only [Rand.after] at hloop
      rw [hloop]
    · rw [hbit j]
      by_cases hj : (j : Int) < n
      · rw [if_pos (by omega)]
        simp [hj]
      · rw [if_neg (by omega), hb.facts.2 j (by omega)]
        simp [hj]
  refine ⟨fun hmax => ?_, fun v hv => ?_, fun v1 v2 h1 h2 => ?_⟩
  · have hnew : NewBitSet n = .ok ⟨List.replicate ((n + 63).tdiv 64).toNat 0, n⟩ := by
      unfold NewBitSet
      rw [if_neg (by omega), if_neg (by
        have := Int.tdiv_eq_ediv (a := n + 63) (b := 64) (by omega) (by decide)
        omega)]
    obtain ⟨v, hv, -⟩ := key _ hnew
    exact ⟨v, hv⟩
  · cases hnew : NewBitSet n with
    | error e =>
      unfold GetMask at hv
      rw [hnew] at hv
      cases hv
    | ok res =>
      obtain ⟨v1, hv1, hl, hbits⟩ := key res hnew
      rw [hv1] at hv
      injection hv with hv
      subst hv
      exact ⟨hl, hbits⟩
  · rw [h1] at h2
    injection h2

/-- C14 with the counter generator, `n = 3` and seed 4: the draws are 0, 1, 0, and the
call returns the bit set `101`, of `Len 3`. -/
theorem GetMask_deterministic_witness :
    GetMask counterRand 3 4 = .ok ⟨[5], 3⟩ ∧
      (∃ v, GetMask counterRand 3 4 = .ok v) ∧
      (∀ v, GetMask counterRand 3 4 = .ok v → v.Len = 3 ∧
        ∀ j : Nat, v.bit j = (decide ((j : Int) < 3) && (counterRand.draw 4 j == 0))) ∧
      (∀ v1 v2, GetMask counterRand 3 4 = .ok v1 → GetMask counterRand 3 4 = .ok v2 →
        v1 = v2) :=
  ⟨by decide!, (GetMask_deterministic counterRand 3 4 (by decide)).1 (by decide),
    (GetMask_deterministic counterRand 3 4 (by decide)).2⟩

end bitSet
end Ezhik

namespace Ezhik
namespace LinearSystem
open bitSet

/-- C12, as stated, fails: `Add` has no length check. On the empty system with 2 unknowns,
`Add` of a coefficient bit set of `Len 3` returns false and promotes the row; and on the
end-to-end example after equation A (values of `Len 8`), `Add` of equation B with a value
of `Len 16` returns true. In both cases the equation is stored. -/
theorem Add_takes_wrong_lengths :
    (NewBitSet 3 = .ok ⟨[0], 3⟩ ∧ (⟨[1], 3⟩ : bitSet).Len ≠ (empty 2).n ∧
      (empty 2).Add ⟨[1], 3⟩ ⟨[1], 8⟩ =
        .returns false ⟨2, [⟨[1], 3⟩], [⟨[1], 8⟩], 1, false⟩) ∧
    (afterA.y = [⟨[1], 8⟩] ∧ (⟨[3], 16⟩ : bitSet).Len ≠ (⟨[1], 8⟩ : bitSet).Len ∧
      afterA.Add ⟨[3], 2⟩ ⟨[3], 16⟩ =
        .returns true ⟨2, [⟨[1], 2⟩, ⟨[2], 2⟩], [⟨[1], 8⟩, ⟨[3], 16⟩], 2, false⟩) :=
  ⟨⟨by decide, by decide, by decide!⟩, by decide, by decide, by decide!⟩

/-- C12 (amended): `Add` checks no length itself. In every state reached from the empty
system with `n` unknowns by `Add` calls with coefficient bit sets of `Len n`: with a
coefficient bit set of `Len n`, `Add` returns whatever the length of the value `y` is; with
a coefficient bit set of another length that `Has(0)`, when `1 <= pos < n`, `Add` fails
with the "XorWith: different lengths" panic of the reduction against pivot row 0, and by
then the equation is appended: `lines` and `y` are one longer, with `line` and `y` at their
end, and nothing else is changed. -/
theorem Add_length_mismatch (n : Int) (ls : LinearSystem) (h : Reached n ls)
    (line y : bitSet) :
    (Fits n line → ∃ b ls1, ls.Add line y = .returns b ls1) ∧
      (1 ≤ ls.pos → ls.pos < ls.n → line.Len ≠ n → line.Has 0 = .ok true →
        ls.Add line y = .panics .xorWithDifferentLengths
          (LinearSystem.mk ls.n (ls.lines ++ [line]) (ls.y ++ [y]) ls.pos ls.ready)) := by
  obtain ⟨hs, hn⟩ := h.has_shape
  refine ⟨fun hl => ?_, fun h1 hlt hlen hhas => ?_⟩
  · obtain ⟨b, ls1, hadd, -⟩ := Add_ok hs line y (by rw [hn]; exact hl)
    exact ⟨b, ls1, hadd⟩
  · have hpl := hs.pos_le_len
    obtain ⟨k, hk⟩ : ∃ k, ls.pos.toNat = k + 1 := ⟨ls.pos.toNat - 1, by omega⟩
    have hidx : ((ls.lines ++ [line]).length : Int) - 1 = (ls.lines.length : Int) := by
      simp
    have h0lt : (0 : Int).toNat < ls.lines.length := by
      rw [Int.toNat_zero]; omega
    have hg0 := getAt_append_left ls.lines line 0 (le_refl _) h0lt
    have hr0 : Fits ls.n (ls.lines.get ⟨(0 : Int).toNat, h0lt⟩) :=
      hs.rows _ (List.get_mem _ _ _)
    have hx : line.XorWith (ls.lines.get ⟨(0 : Int).toNat, h0lt⟩) =
        .panics .xorWithDifferentLengths line := by
      unfold XorWith XorWithFrom
      rw [if_pos (by rw [hr0.2, hn]; exact hlen)]
    have hne : ¬ ((ls.lines.length : Int) = 0) := by omega
    unfold Add
    rw [if_neg (by omega)]
    simp only [EliminateSrcRange, hk, EliminateSrcRangeLoop, hidx, Eliminate, add_zero,
      getAt_append_last, hhas, hg0, if_neg hne, hx, set_append_last]

/-- C12 (amended) at the end-to-end example after equation A: equation B with a value of
`Len 16` is taken, and a coefficient bit set of `Len 3` holding bit 0 makes `Add` fail in
the reduction, the equation being appended. -/
theorem Add_length_mismatch_witness :
    (∃ b ls1, afterA.Add ⟨[3], 2⟩ ⟨[3], 16⟩ = .returns b ls1) ∧
      afterA.Add ⟨[1], 3⟩ ⟨[1], 16⟩ = .panics .xorWithDifferentLengths
        (LinearSystem.mk afterA.n (afterA.lines ++ [⟨[1], 3⟩]) (afterA.y ++ [⟨[1], 16⟩])
          afterA.pos afterA.ready) :=
  ⟨(Add_length_mismatch 2 afterA
      (Reached.add (empty 2) afterA ⟨[1], 2⟩ ⟨[1], 8⟩ false Reached.start (by decide)
        (by decide!))
      ⟨[3], 2⟩ ⟨[3], 16⟩).1 (by decide),
    (Add_length_mismatch 2 afterA
      (Reached.add (empty 2) afterA ⟨[1], 2⟩ ⟨[1], 8⟩ false Reached.start (by decide)
        (by decide!))
      ⟨[1], 3⟩ ⟨[1], 16⟩).2 (by decide) (by decide) (by decide) (by decide)⟩

/-- C16 does not hold of the code. With 2 unknowns, after `Add` of `[1,1]` and of `[1,0]`
the system is full (`pos = n = 2`) with rows `11` and `01` (columns 0 and 1 from the left).
`Backtrack` returns without changing a row: for `i = 1` it calls
`EliminateDstRange(0, i-1, i)`, a range of `i-1 = 0` rows, so column 1 is not eliminated
from row 0, the row just above its pivot. Row 0 still stores a 1 at column 1, and
`Has(1)` is true of it. -/
theorem Backtrack_leaves_row_above :
    Reached 2 ⟨2, [⟨[3], 2⟩, ⟨[2], 2⟩], [⟨[3], 8⟩, ⟨[1], 8⟩], 2, false⟩ ∧
      (LinearSystem.mk 2 [⟨[3], 2⟩, ⟨[2], 2⟩] [⟨[3], 8⟩, ⟨[1], 8⟩] 2 false).Backtrack =
        .returns () ⟨2, [⟨[3], 2⟩, ⟨[2], 2⟩], [⟨[3], 8⟩, ⟨[1], 8⟩], 2, true⟩ ∧
      (LinearSystem.mk 2 [⟨[3], 2⟩, ⟨[2], 2⟩] [⟨[3], 8⟩, ⟨[1], 8⟩] 2
        false).EliminateDstRange 0 (1 - 1) 1 =
        .returns () ⟨2, [⟨[3], 2⟩, ⟨[2], 2⟩], [⟨[3], 8⟩, ⟨[1], 8⟩], 2, false⟩ ∧
      (⟨[3], 2⟩ : bitSet).bit 1 = true ∧ (⟨[3], 2⟩ : bitSet).Has 1 = .ok true :=
  ⟨Reached.add ⟨2, [⟨[3], 2⟩], [⟨[3], 8⟩], 1, false⟩ _ ⟨[1], 2⟩ ⟨[1], 8⟩ true
      (Reached.add (empty 2) _ ⟨[3], 2⟩ ⟨[3], 8⟩ false Reached.start (by decide)
        (by decide!))
      (by decide) (by decide!),
    by decide!, by decide!, by decide!, by decide!⟩

/-- C17 does not hold of the code. In the end-to-end example, `Add` of equation B
(coefficients `[1,1]`, value `00000011`) after equation A: the reduction xors pivot row 0
into the coefficients of the candidate, which become `[0,1]`, and leaves its value alone;
the value stored for the candidate is still `00000011`, not `00000011 XOR 00000001`.
`Eliminate` writes to `lines` only. -/
theorem Eliminate_leaves_values :
    (LinearSystem.mk 2 [⟨[1], 2⟩, ⟨[3], 2⟩] [⟨[1], 8⟩, ⟨[3], 8⟩] 1 false).EliminateSrcRange
        1 0 1 = .returns () ⟨2, [⟨[1], 2⟩, ⟨[2], 2⟩], [⟨[1], 8⟩, ⟨[3], 8⟩], 1, false⟩ ∧
      afterA.Add ⟨[3], 2⟩ ⟨[3], 8⟩ = .returns true afterB ∧
      afterB.lines = [⟨[1], 2⟩, ⟨[2], 2⟩] ∧ afterB.y = [⟨[1], 8⟩, ⟨[3], 8⟩] ∧
      xorWords ⟨[3], 8⟩ ⟨[1], 8⟩ = ⟨[2], 8⟩ :=
  ⟨by decide!, by decide!, by decide, by decide, by decide!⟩

end LinearSystem
end Ezhik

namespace Ezhik
namespace LinearSystem
open bitSet

/-- C19: in every state reached from the empty system with `n >= 0` unknowns by `Add`
calls (with any bit sets, returning or not), by `Backtrack` calls that return and by
`Solve` calls that return: `0 <= pos <= n`, `pos <= len(lines)`, `len(lines) = len(y)`,
`n` is the value fixed at creation, and `ready` is true only if `pos == n`. -/
theorem counters_invariant (n : Int) (h0 : 0 ≤ n) (ls : LinearSystem)
    (h : ReachedAll n ls) :
    0 ≤ ls.pos ∧ ls.pos ≤ n ∧ ls.pos ≤ (ls.lines.length : Int) ∧
      ls.lines.length = ls.y.length ∧ ls.n = n ∧ (ls.ready = true → ls.pos = n) := by
  obtain ⟨⟨c1, c2, c3, c4, c5⟩, hn⟩ := h.counts
  refine ⟨c1, by omega, c2, c3, hn, fun hr => ?_⟩
  have := c5 hr
  omega

/-- C19 at the end-to-end example after its two equations, `Backtrack` and `Solve`. -/
theorem counters_invariant_witness :
    0 ≤ afterBacktrack.pos ∧ afterBacktrack.pos ≤ 2 ∧
      afterBacktrack.pos ≤ (afterBacktrack.lines.length : Int) ∧
      afterBacktrack.lines.length = afterBacktrack.y.length ∧ afterBacktrack.n = 2 ∧
      (afterBacktrack.ready = true → afterBacktrack.pos = 2) :=
  counters_invariant 2 (by decide) afterBacktrack
    (ReachedAll.solve afterBacktrack afterBacktrack [⟨[1], 8⟩, ⟨[2], 8⟩]
      (ReachedAll.backtrack afterB afterBacktrack
        ((by decide! : (afterA.Add ⟨[3], 2⟩ ⟨[3], 8⟩).state = afterB) ▸
          ReachedAll.add afterA ⟨[3], 2⟩ ⟨[3], 8⟩
            ((by decide! : ((empty 2).Add ⟨[1], 2⟩ ⟨[1], 8⟩).state = afterA) ▸
              ReachedAll.add (empty 2) ⟨[1], 2⟩ ⟨[1], 8⟩ ReachedAll.start))
        (by decide!))
      (by decide!))

end LinearSystem
end Ezhik

namespace Ezhik
namespace LinearSystem
open bitSet

/-- C18: in every state reached from the empty system by `Add` calls with coefficient bit
sets of `Len n`, every pivot row `i`, `0 <= i < pos`, exists and stores a 1 at column `i`
and a 0 at every column `j < i`. -/
theorem pivot_rows_echelon (n : Int) (ls : LinearSystem) (h : Reached n ls) (i : Nat)
    (hi : (i : Int) < ls.pos) :
    ∃ r, ls.lines[i]? = some r ∧ r.bit i = true ∧ ∀ j, j < i → r.bit j = false := by
  have hpl := h.has_shape.1.pos_le_len
  have hil : i < ls.lines.length := by omega
  refine ⟨ls.lines[i], List.getElem?_eq_getElem hil, ?_⟩
  exact (h.echelon i _ (List.getElem?_eq_getElem hil)).1 hi

/-- C18 at pivot row 1 of the end-to-end example after its two equations. -/
theorem pivot_rows_echelon_witness :
    ∃ r, afterB.lines[1]? = some r ∧ r.bit 1 = true ∧ ∀ j, j < 1 → r.bit j = false :=
  pivot_rows_echelon 2 afterB
    (Reached.add afterA afterB ⟨[3], 2⟩ ⟨[3], 8⟩ true
      (Reached.add (empty 2) afterA ⟨[1], 2⟩ ⟨[1], 8⟩ false Reached.start (by decide)
        (by decide!))
      (by decide) (by decide!))
    1 (by decide)

end LinearSystem
end Ezhik
